import Mathlib

/-!
Shallow embedding of the MCTS reasoning engine of the homelab reasoning
service (`src/reasoning/mcts.py`, `src/reasoning/nodes.py`,
`src/reasoning/tools.py`) and proofs about its specification.

Conventions of the embedding:
* Node ids are modelled as naturals.  In the source they are nonempty
  uuid strings, so they are always truthy in Python conditionals; the
  few `if some_id:` checks are therefore modelled as `Option` matches.
* Python floats are modelled as exact rationals; float rounding is out
  of scope of the specification.
* Python dictionaries of nodes are modelled as functions
  `Nat → Option MCTSNode`.
* Python `while` loops that walk parent references are modelled with an
  explicit fuel argument; every theorem assumes (or proves) that the
  walked chain is finite and the fuel suffices, which is exactly the
  situation in which the Python loop terminates.
* A lookup of a missing id raises `KeyError` in Python; loops model this
  by an `Option` result or by stopping, and every theorem restricts to
  states where the lookup succeeds, where both semantics agree.
-/

/-- Node of the search tree, translated from `class MCTSNode`
(`src/reasoning/mcts.py`, lines 6-43).  Fields not needed by any claim
(`role`, `is_fully_expanded`, `reflection` text) are kept where a claim's
code path touches them and dropped otherwise. -/
structure MCTSNode where
  id : Nat
  content : List Char
  parent_id : Option Nat
  children_ids : List Nat
  visits : Nat
  value : ℚ
  is_terminal : Bool
  reflection_score : ℚ
  external_score : ℚ
  search_results : Option (List Char)
deriving DecidableEq, Repr

/-- Fresh node as built by `MCTSNode.__init__`: zero visits, zero value,
no children, not terminal. -/
def MCTSNode.fresh (i : Nat) (content : List Char) (parent_id : Option Nat) : MCTSNode :=
  { id := i, content := content, parent_id := parent_id, children_ids := [],
    visits := 0, value := 0, is_terminal := false,
    reflection_score := 0, external_score := 0, search_results := none }

/-- The flat id-to-node dictionary `tree_nodes : Dict[str, MCTSNode]`. -/
abbrev TreeMap := Nat → Option MCTSNode

/-- Dictionary update `tree_nodes[i] = n`. -/
def TreeMap.set (t : TreeMap) (i : Nat) (n : MCTSNode) : TreeMap :=
  fun j => if j = i then some n else t j

/-- The empty dictionary. -/
def TreeMap.empty : TreeMap := fun _ => none

theorem TreeMap.set_self (t : TreeMap) (i : Nat) (n : MCTSNode) :
    t.set i n i = some n := by
  simp [TreeMap.set]

theorem TreeMap.set_other (t : TreeMap) (i : Nat) (n : MCTSNode) (j : Nat) (h : j ≠ i) :
    t.set i n j = t j := by
  simp [TreeMap.set, h]

/-- Translation of `backpropagate` (`src/reasoning/mcts.py`, lines
86-102).  The Python `while current_id:` loop walks parent references,
incrementing `visits`, adding the running value to `value` and decaying
the running value by `gamma` at each hop; it starts at the node that was
just evaluated, not at its parent.  The loop is modelled with fuel; on a
missing id the walk stops (Python would raise `KeyError`, a situation
excluded by the chain hypotheses of all theorems below). -/
def backpropagate (fuel : Nat) (t : TreeMap) (cur : Option Nat) (v gamma : ℚ) : TreeMap :=
  match fuel, cur with
  | 0, _ => t
  | _ + 1, none => t
  | fuel' + 1, some i =>
    match t i with
    | none => t
    | some n =>
      backpropagate fuel'
        (t.set i { n with visits := n.visits + 1, value := n.value + v })
        n.parent_id (v * gamma) gamma

/-- Parent chain of node `i`: the ids visited when walking `parent_id`
references from `i` up to the root.  `ParentChain t i ch` states that `ch`
is exactly that walk and that it ends at a parentless node. -/
inductive ParentChain (t : TreeMap) : Nat → List Nat → Prop where
  | root (i : Nat) (n : MCTSNode) : t i = some n → n.parent_id = none → ParentChain t i [i]
  | step (i p : Nat) (n : MCTSNode) (ch : List Nat) :
      t i = some n → n.parent_id = some p → ParentChain t p ch → ParentChain t i (i :: ch)

theorem ParentChain.head_mem {t : TreeMap} {i : Nat} {ch : List Nat} (h : ParentChain t i ch) :
    i ∈ ch := by
  cases h <;> simp

theorem ParentChain.exists_node {t : TreeMap} {i : Nat} {ch : List Nat} (h : ParentChain t i ch) :
    ∃ n, t i = some n := by
  cases h with
  | root _ n hn _ => exact ⟨n, hn⟩
  | step _ _ n _ hn _ _ => exact ⟨n, hn⟩

theorem ParentChain.mem_exists_node {t : TreeMap} {i : Nat} {ch : List Nat}
    (h : ParentChain t i ch) : ∀ j ∈ ch, ∃ n, t j = some n := by
  induction h with
  | root i n hn _ =>
    intro j hj
    simp at hj
    exact hj ▸ ⟨n, hn⟩
  | step i p n ch hn _ _ ih =>
    intro j hj
    rcases List.mem_cons.mp hj with rfl | hj
    · exact ⟨n, hn⟩
    · exact ih j hj

/-- A chain stays a chain when the dictionary is changed only at ids
outside it, because all lookups a chain performs are at its members. -/
theorem ParentChain.of_agree {t t' : TreeMap} {i : Nat} {ch : List Nat}
    (h : ParentChain t i ch) (hag : ∀ j ∈ ch, t' j = t j) : ParentChain t' i ch := by
  induction h with
  | root i n hn hp =>
    exact ParentChain.root i n (by rw [hag i (by simp)]; exact hn) hp
  | step i p n ch hn hp _ ih =>
    refine ParentChain.step i p n ch ?_ hp (ih ?_)
    · rw [hag i (by simp)]; exact hn
    · intro j hj; exact hag j (List.mem_cons_of_mem _ hj)

/-- Main behaviour of `backpropagate` on a valid, duplicate-free parent
chain: ids off the chain are untouched, and the `k`-th id on the chain
(`k = 0` being the evaluated node itself) gains exactly one visit and
exactly `v * gamma ^ k` of value. -/
theorem backpropagate_chain_spec (ch : List Nat) :
    ∀ (t : TreeMap) (i : Nat) (v gamma : ℚ) (fuel : Nat),
      ParentChain t i ch → ch.Nodup → ch.length ≤ fuel →
      (∀ j, j ∉ ch → backpropagate fuel t (some i) v gamma j = t j) ∧
      (∀ k, (hk : k < ch.length) →
        ∃ n, t (ch.get ⟨k, hk⟩) = some n ∧
          backpropagate fuel t (some i) v gamma (ch.get ⟨k, hk⟩) =
            some { n with visits := n.visits + 1, value := n.value + v * gamma ^ k }) := by
  induction ch with
  | nil =>
    intro t i v gamma fuel hch _ _
    cases hch
  | cons a ch' ih =>
    intro t i v gamma fuel hch hnd hfuel
    have ha : a = i := by cases hch <;> rfl
    subst ha
    obtain ⟨fuel', rfl⟩ : ∃ f, fuel = f + 1 := by
      cases fuel with
      | zero => simp at hfuel
      | succ f => exact ⟨f, rfl⟩
    have hnotmem : a ∉ ch' := (List.nodup_cons.mp hnd).1
    have hnd' : ch'.Nodup := (List.nodup_cons.mp hnd).2
    have hfuel' : ch'.length ≤ fuel' := by
      simpa [Nat.succ_le_succ_iff] using hfuel
    cases hch with
    | root _ n hn hp =>
      -- chain of length one: the walk bumps `a` and stops at a parentless node
      have hstep : backpropagate (fuel' + 1) t (some a) v gamma =
          t.set a { n with visits := n.visits + 1, value := n.value + v } := by
        simp only [backpropagate, hn, hp]
        cases fuel' <;> rfl
      constructor
      · intro j hj
        have hja : j ≠ a := by simpa using hj
        rw [hstep, TreeMap.set_other _ _ _ _ hja]
      · intro k hk
        have hk0 : k = 0 := by simpa using Nat.lt_one_iff.mp (by simpa using hk)
        subst hk0
        refine ⟨n, hn, ?_⟩
        rw [hstep]
        simp [TreeMap.set_self]
    | step _ p n _ hn hp hch' =>
      -- bump `a`, then recurse on the strictly shorter chain of `p`
      set t' := t.set a { n with visits := n.visits + 1, value := n.value + v } with ht'
      have hstep : backpropagate (fuel' + 1) t (some a) v gamma =
          backpropagate fuel' t' n.parent_id (v * gamma) gamma := by
        simp only [backpropagate, hn]
      have hch'' : ParentChain t' p ch' :=
        hch'.of_agree (fun j hj => TreeMap.set_other _ _ _ _ (fun hji => hnotmem (hji ▸ hj)))
      obtain ⟨ihoff, ihon⟩ := ih t' p (v * gamma) gamma fuel' hch'' hnd' hfuel'
      constructor
      · intro j hj
        have hja : j ≠ a := fun hja => hj (hja ▸ List.mem_cons_self _ _)
        have hjch : j ∉ ch' := fun hjc => hj (List.mem_cons_of_mem _ hjc)
        rw [hstep, hp, ihoff j hjch, ht']
        exact TreeMap.set_other _ _ _ _ hja
      · intro k hk
        cases k with
        | zero =>
          refine ⟨n, hn, ?_⟩
          have hget0 : (a :: ch').get ⟨0, hk⟩ = a := rfl
          rw [hget0, hstep, hp, ihoff a hnotmem, ht', TreeMap.set_self]
          simp [hp]
        | succ k' =>
          have hk' : k' < ch'.length := by simpa [Nat.succ_lt_succ_iff] using hk
          obtain ⟨m, hm, hres⟩ := ihon k' hk'
          have hget : (a :: ch').get ⟨k' + 1, hk⟩ = ch'.get ⟨k', hk'⟩ := rfl
          have hma : ch'.get ⟨k', hk'⟩ ≠ a := fun hc => hnotmem (hc ▸ List.get_mem _ _ _)
          refine ⟨m, ?_, ?_⟩
          · rw [hget, ← hm, ht', TreeMap.set_other _ _ _ _ hma]
          · rw [hget, hstep, hp, hres]
            have : v * gamma * gamma ^ k' = v * gamma ^ (k' + 1) := by ring
            rw [this]

/-! Concrete two-node tree used to test backpropagation: node 1 is the
root, node 2 its child, both unvisited with zero value. -/

/-- Root node of the concrete example tree. -/
def exRoot2 : MCTSNode :=
  { id := 1, content := [], parent_id := none, children_ids := [2],
    visits := 0, value := 0, is_terminal := false,
    reflection_score := 0, external_score := 0, search_results := none }

/-- Child node of the concrete example tree. -/
def exChild2 : MCTSNode :=
  { id := 2, content := [], parent_id := some 1, children_ids := [],
    visits := 0, value := 0, is_terminal := false,
    reflection_score := 0, external_score := 0, search_results := none }

/-- Concrete example tree: root 1 with single child 2. -/
def exTree2 : TreeMap :=
  fun j => if j = 1 then some exRoot2 else if j = 2 then some exChild2 else none

/-- C2 (amended): a backpropagation call on an evaluated node carrying
value `v` updates the evaluated node itself and all its ancestors: the
`k`-th node of the parent chain (`k = 0` being the evaluated node, `k = 1`
its parent) gains exactly one visit and exactly `v * 0.95 ^ k` of
cumulative value, so the propagated value shrinks by the factor
`gamma = 0.95` at each hop toward the root, and every id off the chain is
untouched.  (The original claim said only proper ancestors are updated and
that the parent gains the undecayed `v`; the code starts the walk, and the
decay, at the evaluated node itself.) -/
theorem backprop_decay_per_hop (t : TreeMap) (i : Nat) (ch : List Nat) (v : ℚ) (fuel : Nat)
    (hch : ParentChain t i ch) (hnd : ch.Nodup) (hfuel : ch.length ≤ fuel) :
    (∀ j, j ∉ ch → backpropagate fuel t (some i) v (0.95 : ℚ) j = t j) ∧
    (∀ k, (hk : k < ch.length) →
      ∃ n, t (ch.get ⟨k, hk⟩) = some n ∧
        backpropagate fuel t (some i) v (0.95 : ℚ) (ch.get ⟨k, hk⟩) =
          some { n with visits := n.visits + 1, value := n.value + v * (0.95 : ℚ) ^ k }) :=
  backpropagate_chain_spec ch t i v (0.95 : ℚ) fuel hch hnd hfuel

/-- C2 (counterexample to the claim as stated): backpropagating value
`1/2` from node 2 of the concrete tree gives its parent (node 1) a value
increase of `19/40 = 0.475`, not the claimed undecayed `1/2`, and updates
node 2 itself (one new visit), contradicting "only proper ancestors are
updated". -/
theorem backprop_claimed_shape_false :
    ((backpropagate 5 exTree2 (some 2) (1/2) (0.95 : ℚ)) 1).map (fun n => n.value) =
      some (19/40) ∧
    ¬((19 : ℚ)/40 = 0 + 1/2) ∧
    ((backpropagate 5 exTree2 (some 2) (1/2) (0.95 : ℚ)) 2).map
        (fun n => (n.visits, n.value)) = some (1, 1/2) ∧
    (exTree2 2).map (fun n => (n.visits, n.value)) = some (0, 0) := by
  refine ⟨?_, by norm_num, ?_, ?_⟩ <;>
    norm_num [backpropagate, exTree2, exRoot2, exChild2, TreeMap.set]

/-- Witness for `backprop_decay_per_hop` at the concrete two-node tree. -/
theorem backprop_decay_per_hop_witness :
    (backpropagate 5 exTree2 (some 2) (1/2) (0.95 : ℚ)) 3 = exTree2 3 ∧
    ∃ n, exTree2 1 = some n ∧
      (backpropagate 5 exTree2 (some 2) (1/2) (0.95 : ℚ)) 1 =
        some { n with visits := n.visits + 1, value := n.value + (1/2) * (0.95 : ℚ) ^ 1 } := by
  have hch : ParentChain exTree2 2 [2, 1] := by
    refine ParentChain.step 2 1 exChild2 [1] rfl rfl ?_
    exact ParentChain.root 1 exRoot2 rfl rfl
  have h := backprop_decay_per_hop exTree2 2 [2, 1] (1/2) 5 hch (by decide) (by decide)
  refine ⟨h.1 3 (by decide), ?_⟩
  have h2 := h.2 1 (by decide)
  simpa using h2

/-! Embedding of `mcts_backprop_node` (`src/reasoning/nodes.py`, lines
1125-1189), the budget router `should_continue_mcts` (lines 1258-1262)
and the session-level cycle loop they drive. -/

/-- State slice read by `mcts_backprop_node`: the tree, the evaluated
batch (`evaluated_ids`; the empty list models both a missing key and an
empty list, which Python treats alike via `if not child_ids:`), the
fallback `current_child_id` and the remaining search budget. -/
structure BackpropState where
  tree : TreeMap
  evaluated_ids : List Nat
  current_child_id : Option Nat
  search_budget : Int

/-- Result slice written by `mcts_backprop_node`. -/
structure BackpropResult where
  search_budget : Int
  tree : TreeMap
  best_terminal_id : Option Nat

/-- Batch selection at the top of `mcts_backprop_node` (lines 1128-1135):
use `evaluated_ids`, fall back to a singleton `current_child_id`, and
with neither return early (modelled by `none`). -/
def backprop_child_ids (s : BackpropState) : Option (List Nat) :=
  if s.evaluated_ids.isEmpty then
    match s.current_child_id with
    | some c => some [c]
    | none => none
  else some s.evaluated_ids

/-- Loop body of `mcts_backprop_node` (lines 1144-1156): for each child of
the batch, backpropagate its current value with decay 0.95, then re-read
the mutated node to update the running maximum score, the terminal flag
and the best terminal id.  Returns `none` on a missing id (`KeyError`). -/
def mcts_backprop_loop (fuel : Nat) :
    TreeMap → List Nat → ℚ → Bool → Option Nat → Option (TreeMap × ℚ × Bool × Option Nat)
  | t, [], maxScore, foundTerminal, best => some (t, maxScore, foundTerminal, best)
  | t, cid :: rest, maxScore, foundTerminal, best =>
    match t cid with
    | none => none
    | some n =>
      let t' := backpropagate fuel t (some cid) n.value (0.95 : ℚ)
      match t' cid with
      | none => none
      | some n' =>
        let maxScore' := if n'.value > maxScore then n'.value else maxScore
        if n'.is_terminal ∧ n'.value > (0.7 : ℚ) then
          mcts_backprop_loop fuel t' rest maxScore' true (some cid)
        else
          mcts_backprop_loop fuel t' rest maxScore' foundTerminal best

/-- Translation of `mcts_backprop_node` (lines 1125-1189): backpropagate
the whole evaluated batch, decrement the budget by one, then force the
budget to 0 when a terminal node scored above 0.7 or any node scored
above 0.95, recording the best terminal id when (and only when) the
terminal condition fired; `best_terminal_id` is attached to the result
only when set (uuid ids are always truthy). -/
def mcts_backprop_node (fuel : Nat) (s : BackpropState) : Option BackpropResult :=
  match backprop_child_ids s with
  | none => some ⟨s.search_budget - 1, s.tree, none⟩
  | some child_ids =>
    match mcts_backprop_loop fuel s.tree child_ids 0 false none with
    | none => none
    | some (t, maxScore, foundTerminal, best) =>
      let new_budget : Int :=
        if foundTerminal then 0
        else if maxScore > (0.95 : ℚ) then 0
        else s.search_budget - 1
      some ⟨new_budget, t, best⟩

/-- Translation of the router `should_continue_mcts` (lines 1258-1262). -/
def should_continue_mcts (search_budget : Int) : String :=
  if search_budget > 0 then "mcts_loop" else "finalize"

/-- Budget update of one completed `Select…Backprop` cycle as performed
by `mcts_backprop_node`: set to 0 on an early exit, otherwise decrement
by exactly one, independently of the batch size. -/
def cycle_budget (early : Bool) (b : Int) : Int :=
  if early then 0 else b - 1

/-- Session loop of the compiled graph (`graph.py`, lines 119-126): after
`mcts_backprop` the router `should_continue_mcts` re-enters the loop iff
the budget is positive.  `early k` abstracts whether cycle `k` fires an
early-exit condition; the function counts completed cycles. -/
def run_cycles (early : Nat → Bool) : Nat → Nat → Int → Nat
  | 0, _, _ => 0
  | fuel + 1, k, b =>
    let b' := cycle_budget (early k) b
    if should_continue_mcts b' = "mcts_loop" then 1 + run_cycles early fuel (k + 1) b' else 1

/-- Two dictionaries with the same parent reference at every id.
Backpropagation only touches `visits`/`value`, so it preserves this
relation, and parent chains transfer along it. -/
def SameParents (t t' : TreeMap) : Prop :=
  ∀ j, (t j).map MCTSNode.parent_id = (t' j).map MCTSNode.parent_id

theorem SameParents.sp_refl (t : TreeMap) : SameParents t t := fun _ => Eq.refl _

theorem SameParents.sp_trans {t₁ t₂ t₃ : TreeMap}
    (h : SameParents t₁ t₂) (h' : SameParents t₂ t₃) : SameParents t₁ t₃ :=
  fun j => (h j).trans (h' j)

theorem SameParents.sp_set {t : TreeMap} {i : Nat} {n n' : MCTSNode}
    (hn : t i = some n) (hp : n'.parent_id = n.parent_id) :
    SameParents t (t.set i n') := by
  intro j
  by_cases hj : j = i
  · subst hj
    rw [TreeMap.set_self, hn]
    simp [hp]
  · rw [TreeMap.set_other _ _ _ _ hj]

theorem backpropagate_sameParents (fuel : Nat) :
    ∀ (t : TreeMap) (cur : Option Nat) (v gamma : ℚ),
      SameParents t (backpropagate fuel t cur v gamma) := by
  induction fuel with
  | zero => intro t cur v g; exact SameParents.sp_refl t
  | succ fuel ih =>
    intro t cur v g
    cases cur with
    | none => exact SameParents.sp_refl t
    | some i =>
      cases hn : t i with
      | none =>
        simp only [backpropagate, hn]
        exact SameParents.sp_refl t
      | some n =>
        simp only [backpropagate, hn]
        have hmid : SameParents t
            (t.set i { n with visits := n.visits + 1, value := n.value + v }) :=
          SameParents.sp_set hn rfl
        exact hmid.sp_trans (ih _ _ _ _)

theorem ParentChain.of_sameParents {t t' : TreeMap} (hsp : SameParents t t') :
    ∀ {i : Nat} {ch : List Nat}, ParentChain t i ch → ParentChain t' i ch := by
  intro i ch h
  induction h with
  | root i n hn hp =>
    have hi := hsp i
    rw [hn] at hi
    cases ht' : t' i with
    | none => rw [ht'] at hi; simp at hi
    | some n' =>
      rw [ht'] at hi
      simp only [Option.map_some'] at hi
      have hinj : n.parent_id = n'.parent_id := Option.some_injective _ hi
      refine ParentChain.root i n' ht' ?_
      rw [← hinj]
      exact hp
  | step i p n ch hn hp _ ih =>
    have hi := hsp i
    rw [hn] at hi
    cases ht' : t' i with
    | none => rw [ht'] at hi; simp at hi
    | some n' =>
      rw [ht'] at hi
      simp only [Option.map_some'] at hi
      have hinj : n.parent_id = n'.parent_id := Option.some_injective _ hi
      refine ParentChain.step i p n' ch ht' ?_ ih
      rw [← hinj]
      exact hp

theorem ParentChain.head_cons {t : TreeMap} {i : Nat} {ch : List Nat}
    (h : ParentChain t i ch) : ∃ tl, ch = i :: tl := by
  cases h <;> exact ⟨_, rfl⟩

/-- A node of the batch that fires the terminal early-exit test of
`mcts_backprop_node`, phrased against the tree as it stood when the loop
started: the node is terminal and twice its stored value exceeds 0.7
(the loop backpropagates the node's own value into itself before
testing, doubling it). -/
def terminal_qualifier (t0 : TreeMap) (c : Nat) : Prop :=
  ∃ n, t0 c = some n ∧ n.is_terminal = true ∧ 2 * n.value > (0.7 : ℚ)

/-- A node of the batch that fires the high-score early-exit test of
`mcts_backprop_node`: twice its stored value exceeds 0.95. -/
def high_scorer (t0 : TreeMap) (c : Nat) : Prop :=
  ∃ n, t0 c = some n ∧ 2 * n.value > (0.95 : ℚ)

theorem ite_gt_iff (a b c : ℚ) : ((if a > b then a else b) > c) ↔ (a > c ∨ b > c) := by
  by_cases h : a > b
  · rw [if_pos h]
    constructor
    · exact Or.inl
    · rintro (hh | hh)
      · exact hh
      · linarith
  · rw [if_neg h]
    push_neg at h
    constructor
    · exact Or.inr
    · rintro (hh | hh)
      · linarith
      · exact hh

/-- Behaviour of the batch loop of `mcts_backprop_node` on a batch of
pairwise non-interfering nodes (no batch node on another's parent
chain): the loop succeeds, preserves all parent references, its maximum
score exceeds 0.95 iff the initial maximum did or some batch node is a
`high_scorer`, its terminal flag ends up set iff it started set or some
batch node is a `terminal_qualifier`, and the best terminal id is
determined by the `terminal_qualifier`s. -/
theorem mcts_backprop_loop_spec (fuel : Nat) (t0 : TreeMap) :
    ∀ (rest : List Nat) (t : TreeMap) (maxScore : ℚ) (ft : Bool) (best : Option Nat),
      rest.Nodup →
      (∀ c ∈ rest, t c = t0 c) →
      SameParents t0 t →
      (∀ c ∈ rest, ∃ ch, ParentChain t0 c ch ∧ ch.Nodup ∧ ch.length ≤ fuel ∧
        ∀ c' ∈ rest, c' ≠ c → c' ∉ ch) →
      ∃ t' ms ft' best',
        mcts_backprop_loop fuel t rest maxScore ft best = some (t', ms, ft', best') ∧
        SameParents t0 t' ∧
        (ms > (0.95 : ℚ) ↔ maxScore > (0.95 : ℚ) ∨ ∃ c ∈ rest, high_scorer t0 c) ∧
        (ft' = true ↔ ft = true ∨ ∃ c ∈ rest, terminal_qualifier t0 c) ∧
        (∀ c, best' = some c → best = some c ∨ (c ∈ rest ∧ terminal_qualifier t0 c)) ∧
        (best' = none → best = none ∧ ¬ ∃ c ∈ rest, terminal_qualifier t0 c) ∧
        ((∃ c ∈ rest, terminal_qualifier t0 c) ∨ best' = best) := by
  intro rest
  induction rest with
  | nil =>
    intro t maxScore ft best _ _ hsp _
    refine ⟨t, maxScore, ft, best, rfl, hsp, by simp, by simp, ?_, ?_, Or.inr rfl⟩
    · intro c hc; exact Or.inl hc
    · intro hb; exact ⟨hb, by simp⟩
  | cons c rest' ih =>
    intro t maxScore ft best hnd hagree hsp hch
    obtain ⟨ch, hch0, chnd, chlen, hdisj⟩ := hch c (List.mem_cons_self _ _)
    obtain ⟨n, hn0⟩ := hch0.exists_node
    have hcnotmem : c ∉ rest' := (List.nodup_cons.mp hnd).1
    have hnd' : rest'.Nodup := (List.nodup_cons.mp hnd).2
    have hnt : t c = some n := by rw [hagree c (List.mem_cons_self _ _), hn0]
    have hch_t : ParentChain t c ch := hch0.of_sameParents hsp
    have hspec := backpropagate_chain_spec ch t c n.value (0.95 : ℚ) fuel hch_t chnd chlen
    obtain ⟨tl, rfl⟩ := hch_t.head_cons
    have hlen0 : 0 < (c :: tl).length := by simp
    obtain ⟨m, hm, hres⟩ := hspec.2 0 hlen0
    have hget0 : ((c :: tl).get ⟨0, hlen0⟩) = c := rfl
    rw [hget0] at hm hres
    obtain rfl : n = m := Option.some_injective _ (hnt.symm.trans hm)
    set nb : MCTSNode :=
      { n with visits := n.visits + 1, value := n.value + n.value * (0.95 : ℚ) ^ 0 } with hnb
    set t' := backpropagate fuel t (some c) n.value (0.95 : ℚ) with ht'
    have ht'c : t' c = some nb := hres
    have hnbval : nb.value = 2 * n.value := by
      rw [hnb]; simp; ring
    have hnbterm : nb.is_terminal = n.is_terminal := rfl
    -- hypotheses of the induction hypothesis, for the updated tree
    have hagree' : ∀ c2 ∈ rest', t' c2 = t0 c2 := by
      intro c2 hc2
      have hne : c2 ≠ c := fun h => hcnotmem (h ▸ hc2)
      have hnotch : c2 ∉ c :: tl := hdisj c2 (List.mem_cons_of_mem _ hc2) hne
      rw [hspec.1 c2 hnotch]
      exact hagree c2 (List.mem_cons_of_mem _ hc2)
    have hsp' : SameParents t0 t' := hsp.sp_trans (backpropagate_sameParents fuel t _ _ _)
    have hch' : ∀ c2 ∈ rest', ∃ ch2, ParentChain t0 c2 ch2 ∧ ch2.Nodup ∧ ch2.length ≤ fuel ∧
        ∀ c3 ∈ rest', c3 ≠ c2 → c3 ∉ ch2 := by
      intro c2 hc2
      obtain ⟨ch2, h1, h2, h3, h4⟩ := hch c2 (List.mem_cons_of_mem _ hc2)
      exact ⟨ch2, h1, h2, h3, fun c3 hc3 => h4 c3 (List.mem_cons_of_mem _ hc3)⟩
    -- the head of the batch fires the two tests iff it qualifies against `t0`
    have hqualc : (nb.is_terminal = true ∧ nb.value > (0.7 : ℚ)) ↔ terminal_qualifier t0 c := by
      constructor
      · rintro ⟨h1, h2⟩
        exact ⟨n, hn0, hnbterm ▸ h1, by rw [← hnbval]; exact h2⟩
      · rintro ⟨n2, hn2, h1, h2⟩
        obtain rfl : n2 = n := Option.some_injective _ (hn2.symm.trans hn0)
        exact ⟨hnbterm ▸ h1, by rw [hnbval]; exact h2⟩
    have hhighc : (nb.value > (0.95 : ℚ)) ↔ high_scorer t0 c := by
      constructor
      · intro h
        exact ⟨n, hn0, by rw [← hnbval]; exact h⟩
      · rintro ⟨n2, hn2, h⟩
        obtain rfl : n2 = n := Option.some_injective _ (hn2.symm.trans hn0)
        rw [hnbval]
        exact h
    have hms_ite : ((if nb.value > maxScore then nb.value else maxScore) > (0.95 : ℚ)) ↔
        (nb.value > (0.95 : ℚ) ∨ maxScore > (0.95 : ℚ)) := ite_gt_iff _ _ _
    -- unfold one loop step
    have hloop : mcts_backprop_loop fuel t (c :: rest') maxScore ft best =
        if nb.is_terminal = true ∧ nb.value > (0.7 : ℚ) then
          mcts_backprop_loop fuel t' rest'
            (if nb.value > maxScore then nb.value else maxScore) true (some c)
        else
          mcts_backprop_loop fuel t' rest'
            (if nb.value > maxScore then nb.value else maxScore) ft best := by
      simp only [mcts_backprop_loop, hnt, ← ht', ht'c]
    by_cases hq : nb.is_terminal = true ∧ nb.value > (0.7 : ℚ)
    · -- the head is a terminal qualifier
      have hqual : terminal_qualifier t0 c := hqualc.mp hq
      obtain ⟨t'', ms, ft'', best'', hL, hSP, hMS, hFT, hSome, hNone, hOr⟩ :=
        ih t' (if nb.value > maxScore then nb.value else maxScore) true (some c)
          hnd' hagree' hsp' hch'
      refine ⟨t'', ms, ft'', best'', ?_, hSP, ?_, ?_, ?_, ?_, ?_⟩
      · rw [hloop, if_pos hq]; exact hL
      · rw [hMS, hms_ite]
        constructor
        · rintro ((h | h) | h)
          · exact Or.inr ⟨c, List.mem_cons_self _ _, hhighc.mp h⟩
          · exact Or.inl h
          · obtain ⟨c2, hc2, hh⟩ := h
            exact Or.inr ⟨c2, List.mem_cons_of_mem _ hc2, hh⟩
        · rintro (h | ⟨c2, hc2, hh⟩)
          · exact Or.inl (Or.inr h)
          · rcases List.mem_cons.mp hc2 with rfl | hc2'
            · exact Or.inl (Or.inl (hhighc.mpr hh))
            · exact Or.inr ⟨c2, hc2', hh⟩
      · rw [hFT]
        constructor
        · intro _; exact Or.inr ⟨c, List.mem_cons_self _ _, hqual⟩
        · intro _; exact Or.inl rfl
      · intro c2 hc2
        rcases hSome c2 hc2 with h | ⟨hmem, hq2⟩
        · obtain rfl : c = c2 := Option.some_injective _ h
          exact Or.inr ⟨List.mem_cons_self _ _, hqual⟩
        · exact Or.inr ⟨List.mem_cons_of_mem _ hmem, hq2⟩
      · intro hb
        obtain ⟨hcontra, _⟩ := hNone hb
        exact absurd hcontra (by simp)
      · exact Or.inl ⟨c, List.mem_cons_self _ _, hqual⟩
    · -- the head does not fire the terminal test
      have hnqual : ¬ terminal_qualifier t0 c := fun h => hq (hqualc.mpr h)
      obtain ⟨t'', ms, ft'', best'', hL, hSP, hMS, hFT, hSome, hNone, hOr⟩ :=
        ih t' (if nb.value > maxScore then nb.value else maxScore) ft best
          hnd' hagree' hsp' hch'
      refine ⟨t'', ms, ft'', best'', ?_, hSP, ?_, ?_, ?_, ?_, ?_⟩
      · rw [hloop, if_neg hq]; exact hL
      · rw [hMS, hms_ite]
        constructor
        · rintro ((h | h) | h)
          · exact Or.inr ⟨c, List.mem_cons_self _ _, hhighc.mp h⟩
          · exact Or.inl h
          · obtain ⟨c2, hc2, hh⟩ := h
            exact Or.inr ⟨c2, List.mem_cons_of_mem _ hc2, hh⟩
        · rintro (h | ⟨c2, hc2, hh⟩)
          · exact Or.inl (Or.inr h)
          · rcases List.mem_cons.mp hc2 with rfl | hc2'
            · exact Or.inl (Or.inl (hhighc.mpr hh))
            · exact Or.inr ⟨c2, hc2', hh⟩
      · rw [hFT]
        constructor
        · rintro (h | ⟨c2, hc2, hh⟩)
          · exact Or.inl h
          · exact Or.inr ⟨c2, List.mem_cons_of_mem _ hc2, hh⟩
        · rintro (h | ⟨c2, hc2, hh⟩)
          · exact Or.inl h
          · rcases List.mem_cons.mp hc2 with rfl | hc2'
            · exact absurd hh hnqual
            · exact Or.inr ⟨c2, hc2', hh⟩
      · intro c2 hc2
        rcases hSome c2 hc2 with h | ⟨hmem, hq2⟩
        · exact Or.inl h
        · exact Or.inr ⟨List.mem_cons_of_mem _ hmem, hq2⟩
      · intro hb
        obtain ⟨h1, h2⟩ := hNone hb
        refine ⟨h1, ?_⟩
        rintro ⟨c2, hc2, hh⟩
        rcases List.mem_cons.mp hc2 with rfl | hc2'
        · exact hnqual hh
        · exact h2 ⟨c2, hc2', hh⟩
      · rcases hOr with h | h
        · obtain ⟨c2, hc2, hh⟩ := h
          exact Or.inl ⟨c2, List.mem_cons_of_mem _ hc2, hh⟩
        · exact Or.inr h

/-- C1 (amended): after the evaluated batch is backpropagated, the
remaining budget is forced to 0 iff some batch node is a terminal whose
post-backprop value exceeds 0.7 or some batch node's post-backprop value
exceeds 0.95 — and because the loop first backpropagates each node's own
value into itself, the post-backprop value is twice the evaluated value,
so the effective thresholds on evaluated values are 0.35 and 0.475.
Otherwise the budget drops by exactly one.  The winning node id is
recorded for the Finalizer only in the terminal case; a pure high-score
exit records nothing.  (The original claim compared the evaluated value
itself against the thresholds and asserted the id is recorded in either
case.) -/
theorem mcts_backprop_early_exit (fuel : Nat) (s : BackpropState)
    (hne : s.evaluated_ids ≠ [])
    (hnd : s.evaluated_ids.Nodup)
    (hch : ∀ c ∈ s.evaluated_ids, ∃ ch, ParentChain s.tree c ch ∧ ch.Nodup ∧
      ch.length ≤ fuel ∧ ∀ c' ∈ s.evaluated_ids, c' ≠ c → c' ∉ ch) :
    ∃ r, mcts_backprop_node fuel s = some r ∧
      (((∃ c ∈ s.evaluated_ids, terminal_qualifier s.tree c) ∨
        (∃ c ∈ s.evaluated_ids, high_scorer s.tree c)) → r.search_budget = 0) ∧
      (¬((∃ c ∈ s.evaluated_ids, terminal_qualifier s.tree c) ∨
        (∃ c ∈ s.evaluated_ids, high_scorer s.tree c)) →
        r.search_budget = s.search_budget - 1) ∧
      (r.best_terminal_id = none ↔ ¬ ∃ c ∈ s.evaluated_ids, terminal_qualifier s.tree c) ∧
      (∀ c, r.best_terminal_id = some c →
        c ∈ s.evaluated_ids ∧ terminal_qualifier s.tree c) := by
  have hids : backprop_child_ids s = some s.evaluated_ids := by
    have hemp : s.evaluated_ids.isEmpty = false := by
      cases h : s.evaluated_ids with
      | nil => exact absurd h hne
      | cons a l => rfl
    simp [backprop_child_ids, hemp]
  obtain ⟨t', ms, ft', best', hL, _, hMS, hFT, hSome, hNone, hOr⟩ :=
    mcts_backprop_loop_spec fuel s.tree s.evaluated_ids s.tree 0 false none hnd
      (fun _ _ => rfl) (SameParents.sp_refl _) hch
  have hMS' : ms > (0.95 : ℚ) ↔ ∃ c ∈ s.evaluated_ids, high_scorer s.tree c := by
    rw [hMS]
    constructor
    · rintro (h | h)
      · norm_num at h
      · exact h
    · exact Or.inr
  have hFT' : ft' = true ↔ ∃ c ∈ s.evaluated_ids, terminal_qualifier s.tree c := by
    rw [hFT]
    simp
  have hnode : mcts_backprop_node fuel s =
      some ⟨if ft' = true then 0 else if ms > (0.95 : ℚ) then 0 else s.search_budget - 1,
        t', best'⟩ := by
    simp only [mcts_backprop_node, hids, hL]
  refine ⟨_, hnode, ?_, ?_, ?_, ?_⟩
  · rintro (h | h)
    · simp only [if_pos (hFT'.mpr h)]
    · by_cases hft : ft' = true
      · simp only [if_pos hft]
      · simp only [if_neg hft, if_pos (hMS'.mpr h)]
  · intro h
    have h1 : ft' ≠ true := fun hc => h (Or.inl (hFT'.mp hc))
    have h2 : ¬ ms > (0.95 : ℚ) := fun hc => h (Or.inr (hMS'.mp hc))
    simp only [if_neg h1, if_neg h2]
  · constructor
    · intro hb
      exact (hNone hb).2
    · intro hq
      rcases hOr with h | h
      · exact absurd h hq
      · exact h
  · intro c hc
    rcases hSome c hc with h | ⟨hmem, hqual⟩
    · exact absurd h.symm (by simp)
    · exact ⟨hmem, hqual⟩

/-- Root of the concrete tree used against claim C1: unvisited,
value 0, one child (node 2). -/
def c1Root : MCTSNode :=
  { id := 1, content := [], parent_id := none, children_ids := [2],
    visits := 0, value := 0, is_terminal := false,
    reflection_score := 0, external_score := 0, search_results := none }

/-- Batch node of the concrete C1 tree: just evaluated to value `1/2`
(one visit), not terminal. -/
def c1Node2 : MCTSNode :=
  { id := 2, content := [], parent_id := some 1, children_ids := [],
    visits := 1, value := 1/2, is_terminal := false,
    reflection_score := 0, external_score := 0, search_results := none }

/-- Concrete state entering `mcts_backprop_node`: batch `[2]`, evaluated
value `1/2`, budget 3. -/
def c1State : BackpropState :=
  { tree := fun j => if j = 1 then some c1Root else if j = 2 then some c1Node2 else none,
    evaluated_ids := [2], current_child_id := none, search_budget := 3 }

/-- C1 (counterexample to the claim as stated): the only batch node is
non-terminal with evaluated value `1/2 ≤ 0.95`, so the claimed condition
for forcing the budget to 0 is false, yet the code forces the budget to
0 (the post-backprop value is `1 > 0.95`) — and no winning id is
recorded. -/
theorem mcts_backprop_early_exit_claim_false :
    (mcts_backprop_node 5 c1State).map (fun r => (r.search_budget, r.best_terminal_id)) =
      some (0, none) ∧
    (c1State.tree 2).map (fun n => (n.is_terminal, n.value)) = some (false, 1/2) ∧
    ¬((1 : ℚ)/2 > 0.95) ∧
    c1State.evaluated_ids = [2] ∧
    c1State.search_budget = 3 := by
  refine ⟨?_, by norm_num [c1State, c1Node2], by norm_num, rfl, rfl⟩
  norm_num [mcts_backprop_node, backprop_child_ids, mcts_backprop_loop, backpropagate,
    c1State, c1Root, c1Node2, TreeMap.set]

/-- Witness for `mcts_backprop_early_exit` at the concrete C1 state: the
high-score test fires (twice the evaluated value is `1 > 0.95`), the
budget is forced to 0 and no id is recorded. -/
theorem mcts_backprop_early_exit_witness :
    ∃ r, mcts_backprop_node 5 c1State = some r ∧
      r.search_budget = 0 ∧ r.best_terminal_id = none := by
  have hch : ∀ c ∈ c1State.evaluated_ids, ∃ ch, ParentChain c1State.tree c ch ∧ ch.Nodup ∧
      ch.length ≤ 5 ∧ ∀ c' ∈ c1State.evaluated_ids, c' ≠ c → c' ∉ ch := by
    intro c hc
    have hc2 : c = 2 := by simpa [c1State] using hc
    subst hc2
    refine ⟨[2, 1], ?_, by decide, by decide, ?_⟩
    · refine ParentChain.step 2 1 c1Node2 [1] rfl rfl ?_
      exact ParentChain.root 1 c1Root rfl rfl
    · intro c' hc' hne
      exact absurd (by simpa [c1State] using hc') hne
  obtain ⟨r, hr, hE, _, hNone, _⟩ :=
    mcts_backprop_early_exit 5 c1State (by simp [c1State]) (by simp [c1State]) hch
  refine ⟨r, hr, ?_, ?_⟩
  · refine hE (Or.inr ⟨2, by simp [c1State], c1Node2, rfl, by norm_num [c1Node2]⟩)
  · refine hNone.mpr ?_
    rintro ⟨c, hc, n, hn, hterm, _⟩
    have hc2 : c = 2 := by simpa [c1State] using hc
    subst hc2
    have : n = c1Node2 := Option.some_injective _ (hn.symm.trans rfl)
    subst this
    simp [c1Node2] at hterm

/-- C4: a completed `Select…Backprop` cycle consumes exactly one budget
unit regardless of batch size — in particular a cycle whose batch is
empty (all generations failed) still returns `budget - 1` and leaves the
tree untouched; the router re-enters the loop iff the budget is
positive; and a session started with budget `B ≥ 1` whose first `B`
cycles fire no early exit runs exactly `B` completed cycles. -/
theorem cycle_budget_consumption :
    (∀ (fuel : Nat) (t : TreeMap) (b : Int),
      ∃ r, mcts_backprop_node fuel ⟨t, [], none, b⟩ = some r ∧
        r.search_budget = b - 1 ∧ r.tree = t ∧ r.best_terminal_id = none) ∧
    (∀ b : Int, should_continue_mcts b = "mcts_loop" ↔ 0 < b) ∧
    (∀ (early : Nat → Bool) (B : Nat), 1 ≤ B →
      ∀ (k fuel : Nat), B ≤ fuel →
      (∀ j, j < B → early (k + j) = false) →
      run_cycles early fuel k (B : Int) = B) := by
  refine ⟨?_, ?_, ?_⟩
  · intro fuel t b
    exact ⟨⟨b - 1, t, none⟩, by simp [mcts_backprop_node, backprop_child_ids], rfl, rfl, rfl⟩
  · intro b
    by_cases hb : 0 < b
    · simp [should_continue_mcts, hb]
    · have hne : ("finalize" : String) ≠ "mcts_loop" := by decide
      simp [should_continue_mcts, hb, hne]
  · intro early B
    induction B with
    | zero => intro h; exact absurd h (by norm_num)
    | succ B' ihB =>
      intro _ k fuel hfuel hearly
      obtain ⟨f, rfl⟩ : ∃ f, fuel = f + 1 := ⟨fuel - 1, by omega⟩
      have he0 : early k = false := by
        have := hearly 0 (Nat.succ_pos _)
        simpa using this
      have hcb : cycle_budget (early k) ((B' + 1 : Nat) : Int) = (B' : Int) := by
        simp [cycle_budget, he0]
      cases B' with
      | zero =>
        simp only [run_cycles, hcb]
        have hsc : should_continue_mcts ((0 : Nat) : Int) = "finalize" := by
          simp [should_continue_mcts]
        rw [hsc]
        simp
      | succ B'' =>
        simp only [run_cycles, hcb]
        have hsc : should_continue_mcts ((B'' + 1 : Nat) : Int) = "mcts_loop" := by
          have : (0 : Int) < ((B'' + 1 : Nat) : Int) := by positivity
          simp [should_continue_mcts, this]
        rw [hsc]
        have hrec := ihB (by omega) (k + 1) f (by omega)
          (fun j hj => by
            have := hearly (j + 1) (by omega)
            simpa [Nat.add_assoc, Nat.add_comm 1 j] using this)
        rw [if_pos rfl, hrec]
        omega

/-- Witness for `cycle_budget_consumption`: an empty batch with budget 4
returns budget 3; budget 2 re-enters the loop; the budget-3 session of
Scenario B with no early exits runs exactly 3 cycles. -/
theorem cycle_budget_consumption_witness :
    (∃ r, mcts_backprop_node 3 ⟨TreeMap.empty, [], none, 4⟩ = some r ∧
      r.search_budget = 3) ∧
    should_continue_mcts 2 = "mcts_loop" ∧
    run_cycles (fun _ => false) 5 0 ((3 : Nat) : Int) = 3 := by
  obtain ⟨h1, h2, h3⟩ := cycle_budget_consumption
  refine ⟨?_, ?_, ?_⟩
  · obtain ⟨r, hr, hb, _, _⟩ := h1 3 TreeMap.empty 4
    exact ⟨r, hr, by rw [hb]; norm_num⟩
  · exact (h2 2).mpr (by norm_num)
  · exact h3 (fun _ => false) 3 (by norm_num) 0 5 (by norm_num) (fun _ _ => rfl)

/-! Embedding of `get_depth` and `get_adaptive_branching_factor`
(`src/reasoning/mcts.py`, lines 105-144). -/

/-- Translation of `get_depth` (lines 105-115): count the nodes resolved
while walking parent references, so the root alone already has depth 1;
a missing id stops the walk (Python `dict.get` returning `None`). -/
def get_depth (fuel : Nat) (t : TreeMap) (cur : Option Nat) : Nat :=
  match fuel, cur with
  | 0, _ => 0
  | _ + 1, none => 0
  | fuel' + 1, some i =>
    match t i with
    | none => 0
    | some n => get_depth fuel' t n.parent_id + 1

/-- Sample variance as computed by Python `statistics.variance`
(denominator `n - 1`), on exact rationals.  Only ever used on lists of
length at least 2. -/
def stat_variance (xs : List ℚ) : ℚ :=
  ((xs.map (fun x => (x - xs.sum / xs.length) ^ 2)).sum) / ((xs.length : ℚ) - 1)

/-- Translation of `get_adaptive_branching_factor` (lines 118-144):
request 5 candidates when at least two resolvable children exist and the
sample variance of their values exceeds 0.3; else 2 when `get_depth`
exceeds 3; else 3.  (The `if node.children_ids:` guard of the source is
absorbed: with no children the score list is empty and the length test
fails the same way.) -/
def get_adaptive_branching_factor (fuel : Nat) (t : TreeMap) (node : MCTSNode) : Nat :=
  let child_scores := node.children_ids.filterMap (fun c => (t c).map MCTSNode.value)
  if 1 < child_scores.length ∧ stat_variance child_scores > (0.3 : ℚ) then 5
  else if 3 < get_depth fuel t (some node.id) then 2
  else 3

/-- Claim-side branching rule, modelled from the spec's words: 5 under
high variance, else 2 when the depth measured as hops to the root
exceeds 3, else the default 3. -/
def claimed_branching_factor (highVariance : Bool) (hops : Nat) : Nat :=
  if highVariance then 5 else if 3 < hops then 2 else 3

/-- On a valid parent chain, `get_depth` returns the chain length: the
number of nodes between the node and the root inclusive, i.e. hops to
the root plus one. -/
theorem get_depth_eq_chain_length (ch : List Nat) :
    ∀ (t : TreeMap) (i : Nat) (fuel : Nat),
      ParentChain t i ch → ch.length ≤ fuel → get_depth fuel t (some i) = ch.length := by
  induction ch with
  | nil => intro t i fuel hch _; cases hch
  | cons a ch' ih =>
    intro t i fuel hch hlen
    have ha : a = i := by cases hch <;> rfl
    subst ha
    obtain ⟨fuel', rfl⟩ : ∃ f, fuel = f + 1 := by
      cases fuel with
      | zero => simp at hlen
      | succ f => exact ⟨f, rfl⟩
    have hlen' : ch'.length ≤ fuel' := by simpa [Nat.succ_le_succ_iff] using hlen
    cases hch with
    | root _ n hn hp =>
      simp only [get_depth, hn, hp]
      cases fuel' <;> simp [get_depth]
    | step _ p n _ hn hp hch' =>
      simp only [get_depth, hn, hp]
      rw [ih t p fuel' hch' hlen']
      simp

/-- C5 (amended): the number of candidates requested at expansion is 5
when the node has at least two children resolvable in the tree whose
values have sample variance above 0.3; otherwise 2 when the node's
hops-to-root count exceeds 2 (the source's depth counts the node itself,
so its `> 3` test fires already at 3 hops); otherwise the default 3. -/
theorem adaptive_branching_spec (fuel : Nat) (t : TreeMap) (node : MCTSNode)
    (ch : List Nat) (hch : ParentChain t node.id ch) (hlen : ch.length ≤ fuel) :
    ((1 < (node.children_ids.filterMap (fun c => (t c).map MCTSNode.value)).length ∧
      stat_variance (node.children_ids.filterMap (fun c => (t c).map MCTSNode.value)) >
        (0.3 : ℚ)) →
      get_adaptive_branching_factor fuel t node = 5) ∧
    (¬(1 < (node.children_ids.filterMap (fun c => (t c).map MCTSNode.value)).length ∧
      stat_variance (node.children_ids.filterMap (fun c => (t c).map MCTSNode.value)) >
        (0.3 : ℚ)) →
      (2 < ch.length - 1 → get_adaptive_branching_factor fuel t node = 2) ∧
      (ch.length - 1 ≤ 2 → get_adaptive_branching_factor fuel t node = 3)) := by
  have hd : get_depth fuel t (some node.id) = ch.length :=
    get_depth_eq_chain_length ch t node.id fuel hch hlen
  have hpos : 1 ≤ ch.length := by
    cases hch <;> simp
  constructor
  · intro hvar
    simp only [get_adaptive_branching_factor]
    rw [if_pos hvar]
  · intro hnvar
    constructor
    · intro hdeep
      simp only [get_adaptive_branching_factor]
      rw [if_neg hnvar, if_pos (by rw [hd]; omega)]
    · intro hshallow
      simp only [get_adaptive_branching_factor]
      rw [if_neg hnvar, if_neg (by rw [hd]; omega)]

/-- Nodes of the concrete four-node chain 1 ← 2 ← 3 ← 4 used against
claim C5; node 4 sits exactly 3 hops from the root and has no children. -/
def c5Node (i : Nat) : MCTSNode :=
  { id := i, content := [], parent_id := if i = 1 then none else some (i - 1),
    children_ids := if i = 4 then [] else [i + 1],
    visits := 0, value := 0, is_terminal := false,
    reflection_score := 0, external_score := 0, search_results := none }

/-- Concrete chain tree for claim C5. -/
def c5Tree : TreeMap :=
  fun j => if 1 ≤ j ∧ j ≤ 4 then some (c5Node j) else none

/-- C5 (counterexample to the claim as stated): node 4 is exactly 3 hops
from the root (not more than 3), has no children, so the claim demands
the default branching factor 3; the source computes depth 4 (it counts
the node itself) and returns 2. -/
theorem adaptive_branching_claim_false :
    get_adaptive_branching_factor 10 c5Tree (c5Node 4) = 2 ∧
    ParentChain c5Tree 4 [4, 3, 2, 1] ∧
    ([4, 3, 2, 1].length - 1 = 3) ∧
    (c5Node 4).children_ids = [] ∧
    claimed_branching_factor false 3 = 3 ∧
    (2 : Nat) ≠ 3 := by
  refine ⟨?_, ?_, by decide, by decide, by decide, by decide⟩
  · norm_num [get_adaptive_branching_factor, get_depth, stat_variance, c5Tree, c5Node]
  · refine ParentChain.step 4 3 (c5Node 4) [3, 2, 1] rfl rfl ?_
    refine ParentChain.step 3 2 (c5Node 3) [2, 1] rfl rfl ?_
    refine ParentChain.step 2 1 (c5Node 2) [1] rfl rfl ?_
    exact ParentChain.root 1 (c5Node 1) rfl rfl

/-- Root with two children of values 0 and 2: sample variance 2 > 0.3. -/
def c5VarRoot : MCTSNode :=
  { id := 1, content := [], parent_id := none, children_ids := [2, 3],
    visits := 0, value := 0, is_terminal := false,
    reflection_score := 0, external_score := 0, search_results := none }

/-- High-variance example tree: root 1 with children 2 (value 0) and 3
(value 2). -/
def c5VarTree : TreeMap :=
  fun j =>
    if j = 1 then some c5VarRoot
    else if j = 2 then some
      { id := 2, content := [], parent_id := some 1, children_ids := [],
        visits := 1, value := 0, is_terminal := false,
        reflection_score := 0, external_score := 0, search_results := none }
    else if j = 3 then some
      { id := 3, content := [], parent_id := some 1, children_ids := [],
        visits := 1, value := 2, is_terminal := false,
        reflection_score := 0, external_score := 0, search_results := none }
    else none

/-- Witness for `adaptive_branching_spec`: the high-variance root gets
5 candidates, and node 4 of the chain tree (3 hops deep, no children)
gets 2. -/
theorem adaptive_branching_spec_witness :
    get_adaptive_branching_factor 10 c5VarTree c5VarRoot = 5 ∧
    get_adaptive_branching_factor 10 c5Tree (c5Node 4) = 2 := by
  constructor
  · have hch : ParentChain c5VarTree c5VarRoot.id [1] :=
      ParentChain.root 1 c5VarRoot rfl rfl
    refine (adaptive_branching_spec 10 c5VarTree c5VarRoot [1] hch (by decide)).1 ?_
    have hfm : c5VarRoot.children_ids.filterMap (fun c => (c5VarTree c).map MCTSNode.value) =
        [0, 2] := by decide
    rw [hfm]
    refine ⟨by norm_num, by norm_num [stat_variance]⟩
  · have hch : ParentChain c5Tree (c5Node 4).id [4, 3, 2, 1] := by
      refine ParentChain.step 4 3 (c5Node 4) [3, 2, 1] rfl rfl ?_
      refine ParentChain.step 3 2 (c5Node 3) [2, 1] rfl rfl ?_
      refine ParentChain.step 2 1 (c5Node 2) [1] rfl rfl ?_
      exact ParentChain.root 1 (c5Node 1) rfl rfl
    refine ((adaptive_branching_spec 10 c5Tree (c5Node 4) [4, 3, 2, 1] hch (by decide)).2
      ?_).1 (by decide)
    simp [c5Node, stat_variance]

/-! Embedding of the tool-directive parsing and hallucination-truncation
logic (`parse_search_request`, `src/reasoning/nodes.py` lines 128-139,
and the truncation block of `mcts_expand_node`, lines 869-879).  Text is
modelled as `List Char`. -/

/-- Leftmost occurrence of `pat` in `s` (Python `str.find` /
`in`-operator; the regex `<search>(.*?)</search>` with `DOTALL` also
matches at the leftmost opening marker and the closest closing marker
after it). -/
def find_sub : List Char → List Char → Option Nat
  | [], pat => if pat.isPrefixOf ([] : List Char) then some 0 else none
  | c :: s', pat =>
    if pat.isPrefixOf (c :: s') then some 0
    else (find_sub s' pat).map (fun k => k + 1)

/-- Python `str.strip`: drop whitespace from both ends. -/
def py_strip (s : List Char) : List Char :=
  ((s.dropWhile Char.isWhitespace).reverse.dropWhile Char.isWhitespace).reverse

/-- The tool-directive opening marker. -/
def search_open : List Char := "<search>".toList

/-- The tool-directive closing marker. -/
def search_close : List Char := "</search>".toList

/-- Translation of `parse_search_request` (nodes.py, lines 128-139):
`re.search(r"<search>(.*?)</search>", s, re.DOTALL)` finds the first
opening marker and the first closing marker after it and returns the
stripped text in between, else `None`. -/
def parse_search_request (s : List Char) : Option (List Char) :=
  match find_sub s search_open with
  | none => none
  | some i =>
    let after := s.drop (i + 8)
    match find_sub after search_close with
    | none => none
    | some j => some (py_strip (after.take j))

/-- Translation of the truncation block of `mcts_expand_node` (nodes.py,
lines 869-879): when the candidate carries a (truthy, i.e. nonempty)
search query and the closing marker occurs, the text is cut right after
the first closing marker.  The `> 20` length comparison of the source
only controls a log line, not the cut. -/
def truncate_after_search (s : List Char) : List Char :=
  match parse_search_request s with
  | none => s
  | some q =>
    if q.isEmpty then s
    else
      match find_sub s search_close with
      | none => s
      | some idx => s.take (idx + 9)

theorem find_sub_prefix (pat : List Char) :
    ∀ (s : List Char) (idx : Nat), find_sub s pat = some idx →
      pat.isPrefixOf (s.drop idx) = true := by
  intro s
  induction s with
  | nil =>
    intro idx h
    simp only [find_sub] at h
    by_cases hp : pat.isPrefixOf ([] : List Char)
    · rw [if_pos hp] at h
      obtain rfl : (0 : Nat) = idx := Option.some_injective _ h
      simpa using hp
    · rw [if_neg hp] at h
      exact absurd h (by simp)
  | cons c s' ih =>
    intro idx h
    simp only [find_sub] at h
    by_cases hp : pat.isPrefixOf (c :: s')
    · rw [if_pos hp] at h
      obtain rfl : (0 : Nat) = idx := Option.some_injective _ h
      simpa using hp
    · rw [if_neg hp] at h
      cases hf : find_sub s' pat with
      | none => rw [hf] at h; exact absurd h (by simp)
      | some k =>
        rw [hf] at h
        simp only [Option.map_some'] at h
        obtain rfl : k + 1 = idx := Option.some_injective _ h
        simpa using ih k hf

theorem find_sub_isSome_of_occur (pat : List Char) :
    ∀ (s : List Char) (i : Nat), pat.isPrefixOf (s.drop i) = true →
      (find_sub s pat).isSome = true := by
  intro s
  induction s with
  | nil =>
    intro i h
    simp only [List.drop_nil] at h
    simp [find_sub, h]
  | cons c s' ih =>
    intro i h
    cases i with
    | zero =>
      simp only [List.drop_zero] at h
      simp [find_sub, h]
    | succ i' =>
      simp only [List.drop_succ_cons] at h
      by_cases hp : pat.isPrefixOf (c :: s')
      · simp [find_sub, hp]
      · have := ih i' h
        simp only [find_sub, if_neg hp]
        cases hf : find_sub s' pat with
        | none => rw [hf] at this; exact absurd this (by simp)
        | some k => simp

theorem take_add_of_prefix_at (s pat : List Char) (idx : Nat) (hpat : pat ≠ [])
    (h : pat.isPrefixOf (s.drop idx) = true) :
    s.take (idx + pat.length) = s.take idx ++ pat := by
  have hpre : pat <+: s.drop idx := by
    rwa [List.isPrefixOf_iff_prefix] at h
  obtain ⟨r, hr⟩ := hpre
  have hdropne : s.drop idx ≠ [] := by
    rw [← hr]
    simp [hpat]
  have hidx : idx < s.length := by
    by_contra hcon
    push_neg at hcon
    exact hdropne (List.drop_eq_nil_of_le hcon)
  have htlen : (s.take idx).length = idx := by
    rw [List.length_take]
    omega
  conv_lhs => rw [← List.take_append_drop idx s, ← hr]
  rw [List.take_append_eq_append_take]
  rw [List.take_of_length_le (by omega), htlen]
  congr 1
  have : idx + pat.length - idx = pat.length := by omega
  rw [this]
  exact List.take_left pat r

/-- C6 (amended): whenever a generated candidate carries a tool
directive (a parseable, nonempty search query), the candidate's text is
cut right after the first closing marker, so the resulting node content
ends exactly at the closing marker — regardless of how many characters
followed it.  The `~20`-character threshold of the source only selects
whether a warning is logged; it never prevents the cut.  (The original
claim said text with at most ~20 trailing characters is kept
unmodified.) -/
theorem truncate_ends_at_close (s q : List Char)
    (hq : parse_search_request s = some q) (hne : q ≠ []) :
    ∃ idx, find_sub s search_close = some idx ∧
      truncate_after_search s = s.take idx ++ search_close := by
  -- the closing marker occurs somewhere, hence `find_sub` finds one
  have hocc : (find_sub s search_close).isSome = true := by
    simp only [parse_search_request] at hq
    cases ho : find_sub s search_open with
    | none => rw [ho] at hq; exact absurd hq (by simp)
    | some i =>
      rw [ho] at hq
      simp only at hq
      cases hc : find_sub (s.drop (i + 8)) search_close with
      | none => rw [hc] at hq; exact absurd hq (by simp)
      | some j =>
        have hpre : search_close.isPrefixOf ((s.drop (i + 8)).drop j) = true :=
          find_sub_prefix search_close (s.drop (i + 8)) j hc
        rw [List.drop_drop] at hpre
        exact find_sub_isSome_of_occur search_close s (i + 8 + j) hpre
  obtain ⟨idx, hidx⟩ := Option.isSome_iff_exists.mp hocc
  refine ⟨idx, hidx, ?_⟩
  have hpre : search_close.isPrefixOf (s.drop idx) = true :=
    find_sub_prefix search_close s idx hidx
  have htake : s.take (idx + search_close.length) = s.take idx ++ search_close :=
    take_add_of_prefix_at s search_close idx (by decide) hpre
  have hlen : search_close.length = 9 := by decide
  rw [hlen] at htake
  simp only [truncate_after_search, hq, hidx]
  rw [if_neg (by simpa [List.isEmpty_iff] using hne)]
  exact htake

/-- Candidate text of Scenario C-like shape but with only 3 trailing
characters after the closing marker. -/
def c6Short : List Char := "<search>q</search>abc".toList

/-- C6 (counterexample to the claim as stated): a candidate with only 3
(≤ ~20) characters after the closing marker is still truncated — the
source cuts whenever the marker is present, the length test only logs. -/
theorem truncate_claim_false :
    truncate_after_search c6Short = "<search>q</search>".toList ∧
    c6Short.length - ("<search>q</search>".toList).length ≤ 20 ∧
    truncate_after_search c6Short ≠ c6Short := by
  refine ⟨by decide, by decide, by decide⟩

/-- Candidate text of Scenario C: a tool directive followed by 50
fabricated characters. -/
def c6Long : List Char := "<search>find stuff</search>".toList ++ List.replicate 50 'x'

/-- Witness for `truncate_ends_at_close` at the Scenario C input. -/
theorem truncate_ends_at_close_witness :
    ∃ idx, find_sub c6Long search_close = some idx ∧
      truncate_after_search c6Long = c6Long.take idx ++ search_close :=
  truncate_ends_at_close c6Long ("find stuff".toList) (by decide) (by decide)

/-! Embedding of the multi-signal evaluator `mcts_evaluate_node`
(`src/reasoning/nodes.py`, lines 1050-1122) and of the reflection-score
assignment of `reflect_single` inside `mcts_reflect_node` (lines
999-1042). -/

/-- Per-candidate combination of signals in `mcts_evaluate_node` (lines
1080-1097): terminal bonus 0.2, external-weighted blend when an external
score is present, reflection-weighted blend otherwise, clamped to
`[0, 1]`. -/
def evaluate_combined_score (child : MCTSNode) : ℚ :=
  let reflection_score := child.reflection_score
  let external_score := child.external_score
  let terminal_bonus : ℚ := if child.is_terminal then 0.2 else 0
  let combined_score :=
    if external_score > 0 then
      reflection_score * 0.3 + external_score * 0.5 + terminal_bonus
    else
      reflection_score * 0.8 + terminal_bonus
  min 1 (max 0 combined_score)

/-- Loop of `mcts_evaluate_node` over the evaluated batch (lines
1075-1100): store the combined score as the node's value and set its
visits to 1.  `none` models a `KeyError` on a missing id. -/
def mcts_evaluate_loop : TreeMap → List Nat → Option TreeMap
  | t, [] => some t
  | t, cid :: rest =>
    match t cid with
    | none => none
    | some child =>
      mcts_evaluate_loop
        (t.set cid { child with value := evaluate_combined_score child, visits := 1 }) rest

/-- Node-value formula exactly as the specification words it
(spec §4.6), for comparison with the translated evaluator. -/
def spec_node_value (reflectionScore externalScore : ℚ) (terminal : Bool) : ℚ :=
  let terminalBonus : ℚ := if terminal then 0.2 else 0
  min 1 (max 0 (if externalScore > 0 then
    0.3 * reflectionScore + 0.5 * externalScore + terminalBonus
  else
    0.8 * reflectionScore + terminalBonus))

theorem evaluate_combined_eq_spec (n : MCTSNode) :
    evaluate_combined_score n =
      spec_node_value n.reflection_score n.external_score n.is_terminal := by
  simp only [evaluate_combined_score, spec_node_value]
  split_ifs with h1 h2 <;> ring_nf

/-- C8: the evaluator gives every batch node exactly the value
`0.3·reflectionScore + 0.5·externalScore + terminalBonus` when an
external score is present and `0.8·reflectionScore + terminalBonus`
otherwise, clamped to `[0, 1]`, with `terminalBonus = 0.2` iff the node
is terminal; it sets the node's visits to 1 and touches nothing else. -/
theorem mcts_evaluate_value_formula (batch : List Nat) :
    ∀ (t : TreeMap), batch.Nodup → (∀ c ∈ batch, ∃ n, t c = some n) →
    ∃ t', mcts_evaluate_loop t batch = some t' ∧
      (∀ c ∈ batch, ∃ n, t c = some n ∧
        t' c = some { n with
          value := spec_node_value n.reflection_score n.external_score n.is_terminal,
          visits := 1 }) ∧
      (∀ j, j ∉ batch → t' j = t j) := by
  induction batch with
  | nil =>
    intro t _ _
    exact ⟨t, rfl, by simp, fun _ _ => rfl⟩
  | cons c rest ih =>
    intro t hnd hex
    obtain ⟨n, hn⟩ := hex c (List.mem_cons_self _ _)
    have hcnot : c ∉ rest := (List.nodup_cons.mp hnd).1
    have hnd' : rest.Nodup := (List.nodup_cons.mp hnd).2
    set t1 := t.set c { n with value := evaluate_combined_score n, visits := 1 } with ht1
    have hex' : ∀ c2 ∈ rest, ∃ m, t1 c2 = some m := by
      intro c2 hc2
      have hne : c2 ≠ c := fun h => hcnot (h ▸ hc2)
      rw [ht1, TreeMap.set_other _ _ _ _ hne]
      exact hex c2 (List.mem_cons_of_mem _ hc2)
    obtain ⟨t', hL, hOn, hOff⟩ := ih t1 hnd' hex'
    have hstep : mcts_evaluate_loop t (c :: rest) = some t' := by
      simp only [mcts_evaluate_loop, hn, ← ht1]
      exact hL
    refine ⟨t', hstep, ?_, ?_⟩
    · intro c2 hc2
      rcases List.mem_cons.mp hc2 with rfl | hc2'
      · refine ⟨n, hn, ?_⟩
        rw [hOff c2 hcnot, ht1, TreeMap.set_self, evaluate_combined_eq_spec]
      · obtain ⟨m, hm, hset⟩ := hOn c2 hc2'
        have hne : c2 ≠ c := fun h => hcnot (h ▸ hc2')
        rw [ht1, TreeMap.set_other _ _ _ _ hne] at hm
        exact ⟨m, hm, hset⟩
    · intro j hj
      have hjc : j ≠ c := fun h => hj (h ▸ List.mem_cons_self _ _)
      have hjr : j ∉ rest := fun h => hj (List.mem_cons_of_mem _ h)
      rw [hOff j hjr, ht1, TreeMap.set_other _ _ _ _ hjc]

/-- Concrete candidate for the C8 witness: reflection 0.6, external 0.8,
terminal. -/
def c8Node : MCTSNode :=
  { id := 2, content := [], parent_id := some 1, children_ids := [],
    visits := 0, value := 0, is_terminal := true,
    reflection_score := 0.6, external_score := 0.8, search_results := none }

/-- Single-node dictionary for the C8 witness. -/
def c8Tree : TreeMap := fun j => if j = 2 then some c8Node else none

/-- Witness for `mcts_evaluate_value_formula`: the concrete candidate
receives value `0.3·0.6 + 0.5·0.8 + 0.2 = 0.78` and one visit. -/
theorem mcts_evaluate_value_formula_witness :
    ∃ t', mcts_evaluate_loop c8Tree [2] = some t' ∧
      (t' 2).map (fun n => (n.value, n.visits)) = some (0.78, 1) := by
  have hex : ∀ c ∈ [2], ∃ n, c8Tree c = some n := by
    intro c hc
    have hc2 : c = 2 := by simpa using hc
    subst hc2
    exact ⟨c8Node, rfl⟩
  obtain ⟨t', hL, hOn, _⟩ := mcts_evaluate_value_formula [2] c8Tree (by decide) hex
  obtain ⟨n, hn, hset⟩ := hOn 2 (by simp)
  obtain rfl : n = c8Node := by
    have : c8Tree 2 = some c8Node := rfl
    exact Option.some_injective _ (hn.symm.trans this)
  refine ⟨t', hL, ?_⟩
  rw [hset]
  have : spec_node_value c8Node.reflection_score c8Node.external_score c8Node.is_terminal =
      (0.78 : ℚ) := by
    norm_num [spec_node_value, c8Node]
  simp [this]

/-- Reflection-score assignment of `reflect_single` (nodes.py, lines
999-1042): a failed generation call (the `except` branch) yields 0.5;
otherwise the uppercased critique is scanned for `QUALITY: HIGH`
(0.9), then `QUALITY: MEDIUM` (0.6); anything else — including
`QUALITY: LOW` and unparseable text — yields 0.3.  The generation
outcome is the `Option` argument.  The three marker texts scanned for
are named below. -/
def quality_high : List Char := "QUALITY: HIGH".toList

/-- Marker scanned for the middle quality signal. -/
def quality_medium : List Char := "QUALITY: MEDIUM".toList

/-- Marker of the low quality signal (never scanned by the source; it
falls into the `else` branch). -/
def quality_low : List Char := "QUALITY: LOW".toList

def reflection_score_of (reflection : Option (List Char)) : ℚ :=
  match reflection with
  | none => 0.5
  | some r =>
    let u := r.map Char.toUpper
    if (find_sub u quality_high).isSome then 0.9
    else if (find_sub u quality_medium).isSome then 0.6
    else 0.3

/-- Coarse quality signal of the specification. -/
inductive QualitySignal where
  | HIGH
  | MEDIUM
  | LOW
deriving DecidableEq, Repr

/-- Parse of the coarse quality signal from the critique text, modelled
from the spec's words (HIGH/MEDIUM/LOW markers, `none` on parse
failure). -/
def spec_parse_quality (r : List Char) : Option QualitySignal :=
  let u := r.map Char.toUpper
  if (find_sub u quality_high).isSome then some QualitySignal.HIGH
  else if (find_sub u quality_medium).isSome then some QualitySignal.MEDIUM
  else if (find_sub u quality_low).isSome then some QualitySignal.LOW
  else none

/-- Score table of the specification: 0.9/0.6/0.3 for HIGH/MEDIUM/LOW
and the claimed default 0.5 on parse failure. -/
def spec_quality_score : Option QualitySignal → ℚ
  | some QualitySignal.HIGH => 0.9
  | some QualitySignal.MEDIUM => 0.6
  | some QualitySignal.LOW => 0.3
  | none => 0.5

/-- C9 (amended): a parsed HIGH/MEDIUM/LOW signal maps to 0.9/0.6/0.3
as claimed, and the failure of the reflection *call* is non-fatal with
default 0.5 — but an unparseable critique text falls into the `else`
branch and scores 0.3, not the claimed 0.5. -/
theorem reflection_score_mapping :
    (∀ r, reflection_score_of (some r) =
      (if spec_parse_quality r = none then (0.3 : ℚ)
       else spec_quality_score (spec_parse_quality r))) ∧
    reflection_score_of none = 0.5 := by
  refine ⟨?_, rfl⟩
  intro r
  simp only [reflection_score_of, spec_parse_quality]
  by_cases h1 : (find_sub (r.map Char.toUpper) quality_high).isSome
  · simp [h1, spec_quality_score]
  · by_cases h2 : (find_sub (r.map Char.toUpper) quality_medium).isSome
    · simp [h1, h2, spec_quality_score]
    · by_cases h3 : (find_sub (r.map Char.toUpper) quality_low).isSome
      · simp [h1, h2, h3, spec_quality_score]
      · simp [h1, h2, h3, spec_quality_score]

/-- C9 (counterexample to the claim as stated): a critique with no
quality marker at all scores 0.3, not the claimed default 0.5. -/
theorem reflection_default_claim_false :
    reflection_score_of (some ("no signal here".toList)) = 0.3 ∧
    spec_parse_quality ("no signal here".toList) = none ∧
    (0.3 : ℚ) ≠ 0.5 := by
  refine ⟨rfl, rfl, by norm_num⟩

/-! Embedding of the retrieval call site: the retry loop of
`perform_web_search` (`src/reasoning/tools.py`, lines 492-659) and the
MCTS tool step `tool_node` (`src/reasoning/nodes.py`, lines 312-391). -/

/-- Outcome of one retrieval attempt (or of a whole retrieval call):
`ok` carries the formatted result text, `error` the exception message. -/
abbrev SearchOutcome := Except (List Char) (List Char)

/-- Translation of the `AsyncRetrying` loop of `perform_web_search`
(tools.py, lines 560-659): up to three attempts; the inner `except`
always re-raises (lines 645-659), and `reraise=True` re-raises the last
exception when all three attempts failed.  Backoff delays have no
functional effect and are not modelled; the attempt outcomes are the
function argument. -/
def perform_web_search (att : Nat → SearchOutcome) : SearchOutcome :=
  match att 0 with
  | Except.ok r => Except.ok r
  | Except.error _ =>
    match att 1 with
    | Except.ok r => Except.ok r
    | Except.error _ =>
      match att 2 with
      | Except.ok r => Except.ok r
      | Except.error e => Except.error e

/-- Word character of the regex `\b` boundary. -/
def is_word_char (c : Char) : Bool := c.isAlphanum || c == '_'

/-- Scan for the regex `\b20[0-9]\x7b2\x7d\b` of `tool_node`, carrying
the previous character for the left boundary. -/
def has_year_scan : Option Char → List Char → Bool
  | _, [] => false
  | prev, c1 :: rest =>
    (match rest with
     | c2 :: c3 :: c4 :: rest2 =>
       c1 == '2' && c2 == '0' && c3.isDigit && c4.isDigit &&
       (match prev with
        | none => true
        | some p => !(is_word_char p)) &&
       (match rest2 with
        | [] => true
        | r :: _ => !(is_word_char r))
     | _ => false)
    || has_year_scan (some c1) rest

/-- Python `re.search(r"\b20[0-9]\x7b2\x7d\b", query)` of `tool_node`. -/
def has_year (q : List Char) : Bool := has_year_scan none q

/-- Time-sensitive keywords of `tool_node` (nodes.py, lines 344-347). -/
def time_sensitive_keywords : List (List Char) :=
  ["current", "latest", "now", "today", "recent", "new", "update",
   "price", "news", "weather", "stock", "rate", "score", "live"].map String.toList

/-- Keyword test of `tool_node` on the lowercased query. -/
def is_time_sensitive (q : List Char) : Bool :=
  time_sensitive_keywords.any (fun kw => (find_sub (q.map Char.toLower) kw).isSome)

/-- Year-appending query massage of `tool_node` (lines 342-356);
`current_year` abstracts `datetime.now().strftime("%Y")`. -/
def massaged_query (current_year q : List Char) : List Char :=
  if is_time_sensitive q && !(has_year q) then q ++ (' ' :: current_year) else q

/-- Depth tier selection of `tool_node` (lines 358-363). -/
def search_depth_for (iteration : Nat) : List Char :=
  if iteration = 0 then "selective".toList else "snippets".toList

/-- Findings block appended to the in-flight node (line 379). -/
def search_results_block (results : List Char) : List Char :=
  "\n\n[System Notification: Search Results]\n".toList ++ results

/-- Translation of `tool_node` (nodes.py, lines 312-391): with no (or an
empty, hence falsy) pending query it is a no-op; otherwise it massages
the query, picks the depth tier, calls the retrieval collaborator
(`search`), and on success appends the findings block to the selected
node and clears the pending query.  There is no `try`/`except` around
the retrieval call: its exception propagates to the caller
(`Except.error`).  The result pairs the tree with the new pending
query. -/
def tool_node (search : List Char → List Char → SearchOutcome) (current_year : List Char)
    (t : TreeMap) (pending : Option (List Char)) (selected : Option Nat) (iteration : Nat) :
    Except (List Char) (TreeMap × Option (List Char)) :=
  match pending with
  | none => Except.ok (t, none)
  | some q0 =>
    if q0.isEmpty then Except.ok (t, some q0)
    else
      match search (search_depth_for iteration) (massaged_query current_year q0) with
      | Except.error e => Except.error e
      | Except.ok results =>
        let t' :=
          match selected with
          | some sid =>
            match t sid with
            | some n =>
              t.set sid { n with
                content := n.content ++ search_results_block results,
                search_results := some results }
            | none => t
          | none => t
        Except.ok (t', none)

/-- C3 (amended): the retrieval call is retried up to 3 times and the
first success is returned; but when all 3 attempts fail the last
exception is re-raised out of `perform_web_search` (`reraise=True`), and
`tool_node` has no handler, so the exception propagates to its caller —
no failure placeholder is substituted and the reasoning step fails.
(The original claim promised a placeholder and a surviving session.) -/
theorem retrieval_failure_propagates (att : Nat → SearchOutcome) :
    (∀ r, att 0 = Except.ok r → perform_web_search att = Except.ok r) ∧
    (∀ e0 r, att 0 = Except.error e0 → att 1 = Except.ok r →
      perform_web_search att = Except.ok r) ∧
    (∀ e0 e1 r, att 0 = Except.error e0 → att 1 = Except.error e1 →
      att 2 = Except.ok r → perform_web_search att = Except.ok r) ∧
    (∀ e0 e1 e2, att 0 = Except.error e0 → att 1 = Except.error e1 →
      att 2 = Except.error e2 → perform_web_search att = Except.error e2) ∧
    (∀ (search : List Char → List Char → SearchOutcome) (current_year : List Char)
       (t : TreeMap) (q : List Char) (sel : Option Nat) (it : Nat) (e : List Char),
      q ≠ [] →
      search (search_depth_for it) (massaged_query current_year q) = Except.error e →
      tool_node search current_year t (some q) sel it = Except.error e) := by
  refine ⟨?_, ?_, ?_, ?_, ?_⟩
  · intro r h0
    simp [perform_web_search, h0]
  · intro e0 r h0 h1
    simp [perform_web_search, h0, h1]
  · intro e0 e1 r h0 h1 h2
    simp [perform_web_search, h0, h1, h2]
  · intro e0 e1 e2 h0 h1 h2
    simp [perform_web_search, h0, h1, h2]
  · intro search current_year t q sel it e hq hs
    have hne : q.isEmpty = false := by
      cases q with
      | nil => exact absurd rfl hq
      | cons a l => rfl
    simp [tool_node, hne, hs]

/-- Failing retrieval attempts used against claim C3. -/
def c3FailingAttempts : Nat → SearchOutcome := fun _ => Except.error ("ConnectionError".toList)

/-- C3 (counterexample to the claim as stated): with the retrieval
failing on all 3 attempts, `tool_node` returns the re-raised exception —
it does not return a state with a placeholder string, so the exception
does escape to the caller. -/
theorem retrieval_failure_claim_false :
    tool_node (fun _ _ => perform_web_search c3FailingAttempts) ("2026".toList)
        TreeMap.empty (some ("weather in paris".toList)) (some 2) 0 =
      Except.error ("ConnectionError".toList) := by
  rfl

/-- Witness for `retrieval_failure_propagates`: the exhaustion conjunct
and the propagation conjunct applied to the concrete failing attempts. -/
theorem retrieval_failure_propagates_witness :
    perform_web_search c3FailingAttempts = Except.error ("ConnectionError".toList) ∧
    tool_node (fun _ _ => perform_web_search c3FailingAttempts) ("2026".toList)
        TreeMap.empty (some ("population of lisbon".toList)) none 1 =
      Except.error ("ConnectionError".toList) := by
  obtain ⟨_, _, _, hEx, hProp⟩ := retrieval_failure_propagates c3FailingAttempts
  have hpws : perform_web_search c3FailingAttempts =
      Except.error ("ConnectionError".toList) := hEx _ _ _ rfl rfl rfl
  refine ⟨hpws, ?_⟩
  exact hProp (fun _ _ => perform_web_search c3FailingAttempts) ("2026".toList)
    TreeMap.empty ("population of lisbon".toList) none 1 ("ConnectionError".toList)
    (by decide) hpws

/-! Embedding of `uct_score` and `select_leaf` (`src/reasoning/mcts.py`,
lines 45-84).  Scores live in `EReal`: Python's `float('inf')` is `⊤`
and the `-inf` starting best score is `⊥`. -/

/-- Translation of the `q_value` property (mcts.py, lines 30-35). -/
def MCTSNode.q_value (n : MCTSNode) : ℚ :=
  if n.visits = 0 then 0 else n.value / n.visits

/-- Translation of `uct_score` (mcts.py, lines 45-52): unvisited nodes
get the unbounded top score; otherwise mean value plus the exploration
term with weight 1.41. -/
noncomputable def uct_score (node : MCTSNode) (parent_visits : Nat) : EReal :=
  if node.visits = 0 then ⊤
  else (((node.q_value : ℝ) +
    1.41 * Real.sqrt (Real.log parent_visits / node.visits) : ℝ) : EReal)

/-- Child scan of `select_leaf` (mcts.py, lines 71-79): fold over the
children in list order, strictly improving the running best score;
`none` models a `KeyError` on a missing child id. -/
noncomputable def uct_fold (t : TreeMap) (pv : Nat) :
    List Nat → EReal × Option Nat → Option (EReal × Option Nat)
  | [], acc => some acc
  | c :: rest, (bs, bc) =>
    match t c with
    | none => none
    | some child =>
      if bs < uct_score child pv then uct_fold t pv rest (uct_score child pv, some c)
      else uct_fold t pv rest (bs, bc)

/-- Translation of `select_leaf` (mcts.py, lines 54-84): descend from
the root, at each node scanning the children with `uct_fold` starting
from best score `-inf`; stop at a node without children.  The descent
loop carries fuel; `none` models nontermination or a `KeyError`. -/
noncomputable def select_leaf (fuel : Nat) (t : TreeMap) (cur : Nat) : Option Nat :=
  match fuel with
  | 0 => none
  | fuel' + 1 =>
    match t cur with
    | none => none
    | some n =>
      if n.children_ids.isEmpty then some cur
      else
        match uct_fold t n.visits n.children_ids (⊥, none) with
        | none => none
        | some (_, some best) => select_leaf fuel' t best
        | some (_, none) => some cur

theorem uct_score_ne_bot (n : MCTSNode) (pv : Nat) : uct_score n pv ≠ ⊥ := by
  unfold uct_score
  split_ifs
  · exact top_ne_bot
  · exact EReal.coe_ne_bot _

/-- A scan over children none of which beats the running best leaves the
accumulator unchanged. -/
theorem uct_fold_no_update (t : TreeMap) (pv : Nat) :
    ∀ (l : List Nat) (bs : EReal) (bc : Option Nat),
      (∀ c ∈ l, ∃ n, t c = some n ∧ uct_score n pv ≤ bs) →
      uct_fold t pv l (bs, bc) = some (bs, bc) := by
  intro l
  induction l with
  | nil => intro bs bc _; rfl
  | cons c rest ih =>
    intro bs bc h
    obtain ⟨n, hn, hle⟩ := h c (List.mem_cons_self _ _)
    simp only [uct_fold, hn]
    rw [if_neg (not_lt.mpr hle)]
    exact ih bs bc (fun c2 hc2 => h c2 (List.mem_cons_of_mem _ hc2))

/-- The child scan returns the first child attaining the maximal score:
children before it score strictly less, children after it score at most
as much, and the running best starts below it. -/
theorem uct_fold_first_max (t : TreeMap) (pv : Nat) :
    ∀ (pre : List Nat) (post : List Nat) (x : Nat) (nx : MCTSNode) (bs : EReal)
      (bc : Option Nat),
      t x = some nx →
      (∀ c ∈ pre, ∃ n, t c = some n ∧ uct_score n pv < uct_score nx pv) →
      (∀ c ∈ post, ∃ n, t c = some n ∧ uct_score n pv ≤ uct_score nx pv) →
      bs < uct_score nx pv →
      uct_fold t pv (pre ++ x :: post) (bs, bc) = some (uct_score nx pv, some x) := by
  intro pre
  induction pre with
  | nil =>
    intro post x nx bs bc hx _ hpost hbs
    simp only [List.nil_append, uct_fold, hx]
    rw [if_pos hbs]
    exact uct_fold_no_update t pv post _ _ hpost
  | cons c pre' ih =>
    intro post x nx bs bc hx hpre hpost hbs
    obtain ⟨n, hn, hlt⟩ := hpre c (List.mem_cons_self _ _)
    have hpre' : ∀ c2 ∈ pre', ∃ m, t c2 = some m ∧ uct_score m pv < uct_score nx pv :=
      fun c2 hc2 => hpre c2 (List.mem_cons_of_mem _ hc2)
    simp only [List.cons_append, uct_fold, hn]
    by_cases hb : bs < uct_score n pv
    · rw [if_pos hb]
      exact ih post x nx _ _ hx hpre' hpost hlt
    · rw [if_neg hb]
      exact ih post x nx _ _ hx hpre' hpost hbs

/-- C7 (amended): during UCT descent, when several children of the
current node attain the maximal selection score, the one descended into
is the FIRST such child in the parent's `children_ids` list (generation
order), not the child with the smallest id; since selection is a pure
function of the tree, the same tree state still yields the same path.
(In particular all zero-visit children share the top score `⊤`, and the
first of them in list order wins.) -/
theorem select_ties_first_in_list (fuel : Nat) (t : TreeMap) (cur : Nat) (n : MCTSNode)
    (pre post : List Nat) (x : Nat) (nx : MCTSNode)
    (hcur : t cur = some n)
    (hkids : n.children_ids = pre ++ x :: post)
    (hx : t x = some nx)
    (hpre : ∀ c ∈ pre, ∃ m, t c = some m ∧ uct_score m n.visits < uct_score nx n.visits)
    (hpost : ∀ c ∈ post, ∃ m, t c = some m ∧ uct_score m n.visits ≤ uct_score nx n.visits) :
    select_leaf (fuel + 1) t cur = select_leaf fuel t x := by
  have hbot : (⊥ : EReal) < uct_score nx n.visits :=
    bot_lt_iff_ne_bot.mpr (uct_score_ne_bot nx n.visits)
  have hfold : uct_fold t n.visits n.children_ids (⊥, none) =
      some (uct_score nx n.visits, some x) := by
    rw [hkids]
    exact uct_fold_first_max t n.visits pre post x nx ⊥ none hx hpre hpost hbot
  have hne : n.children_ids.isEmpty = false := by
    rw [hkids]
    cases pre <;> rfl
  simp only [select_leaf, hcur, hne, hfold]
  rfl

/-- Root of the concrete tie tree: one visit, children listed as
`[2, 1]`. -/
def c7Root : MCTSNode :=
  { id := 0, content := [], parent_id := none, children_ids := [2, 1],
    visits := 1, value := 0, is_terminal := false,
    reflection_score := 0, external_score := 0, search_results := none }

/-- Unvisited child with the smaller id, listed second. -/
def c7Child1 : MCTSNode :=
  { id := 1, content := [], parent_id := some 0, children_ids := [],
    visits := 0, value := 0, is_terminal := false,
    reflection_score := 0, external_score := 0, search_results := none }

/-- Unvisited child with the larger id, listed first. -/
def c7Child2 : MCTSNode :=
  { id := 2, content := [], parent_id := some 0, children_ids := [],
    visits := 0, value := 0, is_terminal := false,
    reflection_score := 0, external_score := 0, search_results := none }

/-- Concrete tie tree: both children are unvisited, so both score `⊤`. -/
def c7Tree : TreeMap :=
  fun j =>
    if j = 0 then some c7Root
    else if j = 1 then some c7Child1
    else if j = 2 then some c7Child2
    else none

/-- C7 (counterexample to the claim as stated): both children of the
root tie at the unbounded zero-visit score, the claim demands the child
with the smallest id (node 1), but selection descends into node 2 — the
first child in the `children_ids` list. -/
theorem select_smallest_id_claim_false :
    select_leaf 3 c7Tree 0 = some 2 ∧
    uct_score c7Child1 1 = uct_score c7Child2 1 ∧
    c7Root.children_ids = [2, 1] ∧
    (1 : Nat) < 2 := by
  refine ⟨?_, rfl, rfl, by norm_num⟩
  have hfold : uct_fold c7Tree 1 [2, 1] (⊥, none) = some (uct_score c7Child2 1, some 2) := by
    have h := uct_fold_first_max c7Tree 1 [] [1] 2 c7Child2 ⊥ none rfl
      (by intro c hc; simp at hc)
      (by
        intro c hc
        have hc1 : c = 1 := by simpa using hc
        subst hc1
        exact ⟨c7Child1, rfl, le_of_eq rfl⟩)
      (bot_lt_iff_ne_bot.mpr (uct_score_ne_bot c7Child2 1))
    simpa using h
  have h3 : select_leaf 3 c7Tree 0 =
      (match uct_fold c7Tree 1 [2, 1] (⊥, none) with
       | none => none
       | some (_, some best) => select_leaf 2 c7Tree best
       | some (_, none) => some 0) := rfl
  rw [h3, hfold]
  rfl

/-- Witness for `select_ties_first_in_list` at the concrete tie tree:
one descent step moves to node 2, which is a leaf, so selection returns
node 2. -/
theorem select_ties_first_in_list_witness :
    select_leaf 3 c7Tree 0 = select_leaf 2 c7Tree 2 ∧
    select_leaf 2 c7Tree 2 = some 2 := by
  refine ⟨?_, rfl⟩
  refine select_ties_first_in_list 2 c7Tree 0 c7Root [] [1] 2 c7Child2 rfl rfl rfl
    (by intro c hc; simp at hc)
    (by
      intro c hc
      have hc1 : c = 1 := by simpa using hc
      subst hc1
      exact ⟨c7Child1, rfl, le_of_eq rfl⟩)

/-! Embedding of the tree-building operation of `mcts_expand_node`
(`src/reasoning/nodes.py`, lines 886-897) and the visit-count invariant
of claim C10, with the reachability relations it quantifies over. -/

/-- Child creation of `mcts_expand_node` (lines 886-897): build a fresh
node with the selected node as parent (terminal flag from the heuristic),
insert it into the dictionary and append its id to the parent's child
list.  A missing selected id (a `KeyError` in Python) leaves the tree
unchanged; the reachability relations below always provide it. -/
def add_child (t : TreeMap) (sel cid : Nat) (content : List Char) (terminal : Bool) : TreeMap :=
  match t sel with
  | none => t
  | some n =>
    (t.set cid { MCTSNode.fresh cid content (some sel) with is_terminal := terminal }).set sel
      { n with children_ids := n.children_ids ++ [cid] }

/-- One expansion batch: all candidates of one `mcts_expand_node` pass
are appended as children of the selected node, in generation order. -/
def expand_node_batch (t : TreeMap) (sel : Nat)
    (cands : List (Nat × List Char × Bool)) : TreeMap :=
  cands.foldl (fun acc c => add_child acc sel c.1 c.2.1 c.2.2) t

/-- Every listed child resolves in the dictionary and points back at its
parent. -/
def ParentConsistent (t : TreeMap) : Prop :=
  ∀ p np c, t p = some np → c ∈ np.children_ids →
    ∃ nc, t c = some nc ∧ nc.parent_id = some p

/-- Every node has a finite, duplicate-free parent chain to a root. -/
def ChainEx (t : TreeMap) : Prop :=
  ∀ i n, t i = some n → ∃ ch, ParentChain t i ch ∧ ch.Nodup

/-- The dictionary has finitely many nodes. -/
def FinSupport (t : TreeMap) : Prop :=
  ∃ s : Finset Nat, ∀ i, (t i).isSome ↔ i ∈ s

/-- The visit-count invariant of claim C10: a node one of whose children
has positive visits has positive visits itself. -/
def VisitInv (t : TreeMap) : Prop :=
  ∀ p np c nc, t p = some np → c ∈ np.children_ids → t c = some nc →
    0 < nc.visits → 0 < np.visits

/-- Conjunction of the structural invariants maintained by the engine. -/
def TreeInv (t : TreeMap) : Prop :=
  ParentConsistent t ∧ ChainEx t ∧ FinSupport t ∧ VisitInv t

/-- Two dictionaries with identical parent references and child lists at
every id (they may differ in visits, values and scores). -/
def SameStructure (t t' : TreeMap) : Prop :=
  ∀ j, (t j).map (fun n => (n.parent_id, n.children_ids)) =
    (t' j).map (fun n => (n.parent_id, n.children_ids))

theorem SameStructure.ss_refl (t : TreeMap) : SameStructure t t := fun _ => Eq.refl _

theorem SameStructure.ss_trans {t₁ t₂ t₃ : TreeMap}
    (h : SameStructure t₁ t₂) (h' : SameStructure t₂ t₃) : SameStructure t₁ t₃ :=
  fun j => (h j).trans (h' j)

theorem SameStructure.symm {t t' : TreeMap} (h : SameStructure t t') : SameStructure t' t :=
  fun j => (h j).symm

theorem SameStructure.lookup {t t' : TreeMap} (h : SameStructure t t') {j : Nat}
    {n : MCTSNode} (hj : t j = some n) :
    ∃ n', t' j = some n' ∧ n'.parent_id = n.parent_id ∧
      n'.children_ids = n.children_ids := by
  have hh := h j
  rw [hj] at hh
  cases ht' : t' j with
  | none => rw [ht'] at hh; simp at hh
  | some n' =>
    rw [ht'] at hh
    simp only [Option.map_some', Option.some_inj, Prod.mk.injEq] at hh
    exact ⟨n', Eq.refl _, hh.1.symm, hh.2.symm⟩

theorem SameStructure.isSome_eq {t t' : TreeMap} (h : SameStructure t t') (j : Nat) :
    (t j).isSome = (t' j).isSome := by
  have hh := h j
  cases ht : t j <;> cases ht' : t' j <;> rw [ht, ht'] at hh <;> simp_all

theorem SameStructure.toSameParents {t t' : TreeMap} (h : SameStructure t t') :
    SameParents t t' := by
  intro j
  have hh := h j
  cases ht : t j <;> cases ht' : t' j <;> rw [ht, ht'] at hh <;> simp_all

theorem SameStructure.ss_set {t : TreeMap} {i : Nat} {n n' : MCTSNode}
    (hn : t i = some n) (hp : n'.parent_id = n.parent_id)
    (hc : n'.children_ids = n.children_ids) :
    SameStructure t (t.set i n') := by
  intro j
  by_cases hj : j = i
  · subst hj
    rw [TreeMap.set_self, hn]
    simp [hp, hc]
  · rw [TreeMap.set_other _ _ _ _ hj]

/-- Parent chains only read the parent reference of their members, so
they transfer along pointwise parent agreement. -/
theorem ParentChain.of_parent_eq {t t' : TreeMap} :
    ∀ {i : Nat} {ch : List Nat}, ParentChain t i ch →
      (∀ j ∈ ch, ∀ n, t j = some n → ∃ n', t' j = some n' ∧ n'.parent_id = n.parent_id) →
      ParentChain t' i ch := by
  intro i ch h
  induction h with
  | root i n hn hp =>
    intro hag
    obtain ⟨n', hn', hp'⟩ := hag i (by simp) n hn
    exact ParentChain.root i n' hn' (hp' ▸ hp)
  | step i p n ch hn hp _ ih =>
    intro hag
    obtain ⟨n', hn', hp'⟩ := hag i (by simp) n hn
    exact ParentChain.step i p n' ch hn' (hp' ▸ hp)
      (ih (fun j hj => hag j (List.mem_cons_of_mem _ hj)))

/-- A node's parent walk is unique. -/
theorem ParentChain.unique {t : TreeMap} :
    ∀ {i : Nat} {ch1 ch2 : List Nat},
      ParentChain t i ch1 → ParentChain t i ch2 → ch1 = ch2 := by
  intro i ch1 ch2 h1
  induction h1 generalizing ch2 with
  | root i n hn hp =>
    intro h2
    cases h2 with
    | root _ m hm _ => rfl
    | step _ p m _ hm hpp _ =>
      obtain rfl : n = m := Option.some_injective _ (hn.symm.trans hm)
      rw [hp] at hpp
      exact absurd hpp (by simp)
  | step i p n ch hn hpp _ ih =>
    intro h2
    cases h2 with
    | root _ m hm hpm =>
      obtain rfl : n = m := Option.some_injective _ (hn.symm.trans hm)
      rw [hpp] at hpm
      exact absurd hpm (by simp)
    | step _ p2 m ch2' hm hp2 hch2 =>
      obtain rfl : n = m := Option.some_injective _ (hn.symm.trans hm)
      obtain rfl : p = p2 := Option.some_injective _ (hpp.symm.trans hp2)
      rw [ih hch2]

/-- The parent of any chain member is itself a chain member. -/
theorem ParentChain.parent_mem {t : TreeMap} :
    ∀ {i : Nat} {ch : List Nat}, ParentChain t i ch →
      ∀ c ∈ ch, ∀ nc, t c = some nc → ∀ p, nc.parent_id = some p → p ∈ ch := by
  intro i ch h
  induction h with
  | root i n hn hp =>
    intro c hc nc hnc p hpp
    have hci : c = i := by simpa using hc
    subst hci
    obtain rfl : n = nc := Option.some_injective _ (hn.symm.trans hnc)
    rw [hp] at hpp
    exact absurd hpp (by simp)
  | step i p0 n ch hn hp0 hch ih =>
    intro c hc nc hnc p hpp
    rcases List.mem_cons.mp hc with rfl | hc'
    · obtain rfl : n = nc := Option.some_injective _ (hn.symm.trans hnc)
      obtain rfl : p0 = p := Option.some_injective _ (hp0.symm.trans hpp)
      exact List.mem_cons_of_mem _ hch.head_mem
    · exact List.mem_cons_of_mem _ (ih c hc' nc hnc p hpp)

theorem backpropagate_sameStructure (fuel : Nat) :
    ∀ (t : TreeMap) (cur : Option Nat) (v gamma : ℚ),
      SameStructure t (backpropagate fuel t cur v gamma) := by
  induction fuel with
  | zero => intro t cur v g; exact SameStructure.ss_refl t
  | succ fuel ih =>
    intro t cur v g
    cases cur with
    | none => exact SameStructure.ss_refl t
    | some i =>
      cases hn : t i with
      | none =>
        simp only [backpropagate, hn]
        exact SameStructure.ss_refl t
      | some n =>
        simp only [backpropagate, hn]
        have hmid : SameStructure t
            (t.set i { n with visits := n.visits + 1, value := n.value + v }) :=
          SameStructure.ss_set hn (Eq.refl _) (Eq.refl _)
        exact hmid.ss_trans (ih _ _ _ _)

theorem backpropagate_visits_mono (fuel : Nat) :
    ∀ (t : TreeMap) (cur : Option Nat) (v gamma : ℚ) (j : Nat) (m : MCTSNode),
      t j = some m →
      ∃ m', backpropagate fuel t cur v gamma j = some m' ∧ m.visits ≤ m'.visits := by
  induction fuel with
  | zero => intro t cur v g j m hm; exact ⟨m, hm, le_refl _⟩
  | succ fuel ih =>
    intro t cur v g j m hm
    cases cur with
    | none => exact ⟨m, hm, le_refl _⟩
    | some i =>
      cases hn : t i with
      | none =>
        simp only [backpropagate, hn]
        exact ⟨m, hm, le_refl _⟩
      | some n =>
        simp only [backpropagate, hn]
        by_cases hj : j = i
        · subst hj
          obtain rfl : n = m := Option.some_injective _ (hn.symm.trans hm)
          obtain ⟨m', hm', hle⟩ := ih
            (t.set j { n with visits := n.visits + 1, value := n.value + v })
            n.parent_id (v * g) g j { n with visits := n.visits + 1, value := n.value + v }
            (TreeMap.set_self _ _ _)
          refine ⟨m', hm', ?_⟩
          have : n.visits ≤ n.visits + 1 := Nat.le_succ _
          exact this.trans hle
        · obtain ⟨m', hm', hle⟩ := ih
            (t.set i { n with visits := n.visits + 1, value := n.value + v })
            n.parent_id (v * g) g j m (by rw [TreeMap.set_other _ _ _ _ hj]; exact hm)
          exact ⟨m', hm', hle⟩

theorem mcts_evaluate_loop_sameStructure :
    ∀ (batch : List Nat) (t t₁ : TreeMap),
      mcts_evaluate_loop t batch = some t₁ → SameStructure t t₁ := by
  intro batch
  induction batch with
  | nil =>
    intro t t₁ h
    obtain rfl : t = t₁ := Option.some_injective _ h
    exact SameStructure.ss_refl t
  | cons c rest ih =>
    intro t t₁ h
    simp only [mcts_evaluate_loop] at h
    cases hn : t c with
    | none => rw [hn] at h; exact absurd h (by simp)
    | some n =>
      rw [hn] at h
      have hmid : SameStructure t
          (t.set c { n with value := evaluate_combined_score n, visits := 1 }) :=
        SameStructure.ss_set hn (Eq.refl _) (Eq.refl _)
      exact hmid.ss_trans (ih _ _ h)

theorem mcts_evaluate_loop_mem_node :
    ∀ (batch : List Nat) (t t₁ : TreeMap),
      mcts_evaluate_loop t batch = some t₁ →
      ∀ c ∈ batch, ∃ n, t c = some n := by
  intro batch
  induction batch with
  | nil => intro t t₁ _ c hc; simp at hc
  | cons c0 rest ih =>
    intro t t₁ h c hc
    simp only [mcts_evaluate_loop] at h
    cases hn : t c0 with
    | none => rw [hn] at h; exact absurd h (by simp)
    | some n =>
      rw [hn] at h
      rcases List.mem_cons.mp hc with rfl | hc'
      · exact ⟨n, hn⟩
      · obtain ⟨m, hm⟩ := ih _ _ h c hc'
        by_cases hcc : c = c0
        · subst hcc; exact ⟨n, hn⟩
        · rw [TreeMap.set_other _ _ _ _ hcc] at hm
          exact ⟨m, hm⟩

theorem mcts_backprop_loop_sameStructure (fuel : Nat) :
    ∀ (rest : List Nat) (t : TreeMap) (ms : ℚ) (ft : Bool) (bs : Option Nat)
      (t' : TreeMap) (ms' : ℚ) (ft' : Bool) (bs' : Option Nat),
      mcts_backprop_loop fuel t rest ms ft bs = some (t', ms', ft', bs') →
      SameStructure t t' := by
  intro rest
  induction rest with
  | nil =>
    intro t ms ft bs t' ms' ft' bs' h
    simp only [mcts_backprop_loop] at h
    obtain ⟨rfl, _⟩ : t = t' ∧ ms = ms' := by
      have := Option.some_injective _ h
      exact ⟨congrArg Prod.fst this, congrArg (fun x => x.2.1) this⟩
    exact SameStructure.ss_refl t
  | cons c rest' ih =>
    intro t ms ft bs t' ms' ft' bs' h
    simp only [mcts_backprop_loop] at h
    cases hn : t c with
    | none => rw [hn] at h; exact absurd h (by simp)
    | some n =>
      rw [hn] at h
      simp only at h
      cases hn' : backpropagate fuel t (some c) n.value (0.95 : ℚ) c with
      | none => rw [hn'] at h; exact absurd h (by simp)
      | some nb =>
        rw [hn'] at h
        simp only at h
        have hbp : SameStructure t (backpropagate fuel t (some c) n.value (0.95 : ℚ)) :=
          backpropagate_sameStructure fuel t _ _ _
        split at h
        · exact hbp.ss_trans (ih _ _ _ _ _ _ _ _ h)
        · exact hbp.ss_trans (ih _ _ _ _ _ _ _ _ h)

theorem mcts_backprop_loop_visits_mono (fuel : Nat) :
    ∀ (rest : List Nat) (t : TreeMap) (ms : ℚ) (ft : Bool) (bs : Option Nat)
      (t' : TreeMap) (ms' : ℚ) (ft' : Bool) (bs' : Option Nat),
      mcts_backprop_loop fuel t rest ms ft bs = some (t', ms', ft', bs') →
      ∀ j m, t j = some m → ∃ m', t' j = some m' ∧ m.visits ≤ m'.visits := by
  intro rest
  induction rest with
  | nil =>
    intro t ms ft bs t' ms' ft' bs' h j m hm
    simp only [mcts_backprop_loop] at h
    obtain rfl : t = t' := congrArg Prod.fst (Option.some_injective _ h)
    exact ⟨m, hm, le_refl _⟩
  | cons c rest' ih =>
    intro t ms ft bs t' ms' ft' bs' h j m hm
    simp only [mcts_backprop_loop] at h
    cases hn : t c with
    | none => rw [hn] at h; exact absurd h (by simp)
    | some n =>
      rw [hn] at h
      simp only at h
      cases hn' : backpropagate fuel t (some c) n.value (0.95 : ℚ) c with
      | none => rw [hn'] at h; exact absurd h (by simp)
      | some nb =>
        rw [hn'] at h
        simp only at h
        obtain ⟨m1, hm1, hle1⟩ := backpropagate_visits_mono fuel t (some c) n.value (0.95 : ℚ) j m hm
        split at h
        · obtain ⟨m', hm', hle2⟩ := ih _ _ _ _ _ _ _ _ h j m1 hm1
          exact ⟨m', hm', hle1.trans hle2⟩
        · obtain ⟨m', hm', hle2⟩ := ih _ _ _ _ _ _ _ _ h j m1 hm1
          exact ⟨m', hm', hle1.trans hle2⟩

/-- Visit bookkeeping of the backpropagation batch loop: every member of
the parent chain of every batch node ends with positive visits, and ids
on no batch chain are untouched. -/
theorem mcts_backprop_loop_visits (fuel : Nat) (t0 : TreeMap) :
    ∀ (rest : List Nat) (t : TreeMap) (ms : ℚ) (ft : Bool) (bs : Option Nat)
      (t' : TreeMap) (ms' : ℚ) (ft' : Bool) (bs' : Option Nat),
      rest.Nodup →
      (∀ c ∈ rest, t c = t0 c) →
      SameParents t0 t →
      (∀ c ∈ rest, ∃ ch, ParentChain t0 c ch ∧ ch.Nodup ∧ ch.length ≤ fuel ∧
        ∀ c' ∈ rest, c' ≠ c → c' ∉ ch) →
      mcts_backprop_loop fuel t rest ms ft bs = some (t', ms', ft', bs') →
      (∀ c ∈ rest, ∀ chc, ParentChain t0 c chc → ∀ j ∈ chc,
        ∃ m', t' j = some m' ∧ 0 < m'.visits) ∧
      (∀ j, (∀ c ∈ rest, ∀ chc, ParentChain t0 c chc → j ∉ chc) → t' j = t j) := by
  intro rest
  induction rest with
  | nil =>
    intro t ms ft bs t' ms' ft' bs' _ _ _ _ h
    obtain rfl : t = t' := congrArg Prod.fst (Option.some_injective _ h)
    exact ⟨by simp, fun j _ => Eq.refl _⟩
  | cons c rest' ih =>
    intro t ms ft bs t' ms' ft' bs' hnd hagree hsp hch h
    obtain ⟨ch, hch0, chnd, chlen, hdisj⟩ := hch c (List.mem_cons_self _ _)
    obtain ⟨n, hn0⟩ := hch0.exists_node
    have hcnotmem : c ∉ rest' := (List.nodup_cons.mp hnd).1
    have hnd' : rest'.Nodup := (List.nodup_cons.mp hnd).2
    have hnt : t c = some n := by rw [hagree c (List.mem_cons_self _ _), hn0]
    have hch_t : ParentChain t c ch := hch0.of_sameParents hsp
    have hspec := backpropagate_chain_spec ch t c n.value (0.95 : ℚ) fuel hch_t chnd chlen
    simp only [mcts_backprop_loop, hnt] at h
    obtain ⟨tl, rfl⟩ := hch_t.head_cons
    have hlen0 : 0 < (c :: tl).length := by simp
    obtain ⟨m, hm, hres⟩ := hspec.2 0 hlen0
    have hget0 : ((c :: tl).get ⟨0, hlen0⟩) = c := rfl
    rw [hget0] at hm hres
    obtain rfl : n = m := Option.some_injective _ (hnt.symm.trans hm)
    rw [hres] at h
    simp only at h
    set t'' := backpropagate fuel t (some c) n.value (0.95 : ℚ) with ht''
    have hagree' : ∀ c2 ∈ rest', t'' c2 = t0 c2 := by
      intro c2 hc2
      have hne : c2 ≠ c := fun hx => hcnotmem (hx ▸ hc2)
      have hnotch : c2 ∉ c :: tl := hdisj c2 (List.mem_cons_of_mem _ hc2) hne
      rw [hspec.1 c2 hnotch]
      exact hagree c2 (List.mem_cons_of_mem _ hc2)
    have hsp' : SameParents t0 t'' := hsp.sp_trans (backpropagate_sameParents fuel t _ _ _)
    have hch' : ∀ c2 ∈ rest', ∃ ch2, ParentChain t0 c2 ch2 ∧ ch2.Nodup ∧ ch2.length ≤ fuel ∧
        ∀ c3 ∈ rest', c3 ≠ c2 → c3 ∉ ch2 := by
      intro c2 hc2
      obtain ⟨ch2, h1, h2, h3, h4⟩ := hch c2 (List.mem_cons_of_mem _ hc2)
      exact ⟨ch2, h1, h2, h3, fun c3 hc3 => h4 c3 (List.mem_cons_of_mem _ hc3)⟩
    -- the recursion target of both branches of the if
    have hkey : ∀ (ms₁ : ℚ) (ft₁ : Bool) (bs₁ : Option Nat),
        mcts_backprop_loop fuel t'' rest' ms₁ ft₁ bs₁ = some (t', ms', ft', bs') →
        (∀ c2 ∈ c :: rest', ∀ chc, ParentChain t0 c2 chc → ∀ j ∈ chc,
          ∃ m', t' j = some m' ∧ 0 < m'.visits) ∧
        (∀ j, (∀ c2 ∈ c :: rest', ∀ chc, ParentChain t0 c2 chc → j ∉ chc) → t' j = t j) := by
      intro ms₁ ft₁ bs₁ hrec
      obtain ⟨ihH, ihU⟩ :=
        ih t'' ms₁ ft₁ bs₁ t' ms' ft' bs' hnd' hagree' hsp' hch' hrec
      have hmono := mcts_backprop_loop_visits_mono fuel rest' t'' ms₁ ft₁ bs₁
        t' ms' ft' bs' hrec
      constructor
      · intro c2 hc2 chc hchc j hj
        rcases List.mem_cons.mp hc2 with rfl | hc2'
        · -- the head's own chain: every member was bumped, then only grew
          obtain rfl : chc = c2 :: tl := ParentChain.unique hchc hch0
          obtain ⟨k, hk⟩ := List.mem_iff_get.mp hj
          obtain ⟨mk, _, hmk⟩ := hspec.2 k k.isLt
          rw [hk] at hmk
          obtain ⟨m', hm', hle⟩ := hmono j _ hmk
          exact ⟨m', hm', lt_of_lt_of_le (Nat.succ_pos _) hle⟩
        · exact ihH c2 hc2' chc hchc j hj
      · intro j hj
        have hjc : j ∉ c :: tl := hj c (List.mem_cons_self _ _) (c :: tl) hch0
        have h1 : t'' j = t j := hspec.1 j hjc
        have h2 : t' j = t'' j := ihU j
          (fun c2 hc2 chc hchc => hj c2 (List.mem_cons_of_mem _ hc2) chc hchc)
        rw [h2, h1]
    split at h
    · exact hkey _ _ _ h
    · exact hkey _ _ _ h

theorem ParentConsistent.pc_of_sameStructure {t t' : TreeMap} (h : SameStructure t t')
    (hpc : ParentConsistent t) : ParentConsistent t' := by
  intro p np c hp hc
  obtain ⟨np0, hp0, _, hchq⟩ := h.symm.lookup hp
  obtain ⟨nc0, hc0, hparc⟩ := hpc p np0 c hp0 (by rw [hchq]; exact hc)
  obtain ⟨nc', hc', hparc', _⟩ := h.lookup hc0
  exact ⟨nc', hc', by rw [hparc', hparc]⟩

theorem ChainEx.ce_of_sameStructure {t t' : TreeMap} (h : SameStructure t t')
    (hce : ChainEx t) : ChainEx t' := by
  intro i n' hn'
  obtain ⟨n, hn, _, _⟩ := h.symm.lookup hn'
  obtain ⟨ch, hch, hnd⟩ := hce i n hn
  exact ⟨ch, hch.of_sameParents h.toSameParents, hnd⟩

theorem FinSupport.fs_of_sameStructure {t t' : TreeMap} (h : SameStructure t t')
    (hfs : FinSupport t) : FinSupport t' := by
  obtain ⟨s, hs⟩ := hfs
  exact ⟨s, fun i => by rw [← h.isSome_eq i]; exact hs i⟩

/-- Core preservation argument of claim C10: a complete
evaluate-then-backpropagate pass on a batch restores the visit-count
invariant — evaluation gives every batch node one visit, and the
subsequent backpropagation gives every ancestor of every batch node at
least one visit. -/
theorem cycle_preserves_visitInv (t t₁ t₂ : TreeMap) (batch : List Nat) (fuel : Nat)
    (ms : ℚ) (ft : Bool) (bst : Option Nat)
    (hinv : TreeInv t)
    (hnd : batch.Nodup)
    (heval : mcts_evaluate_loop t batch = some t₁)
    (hch : ∀ c ∈ batch, ∃ ch, ParentChain t₁ c ch ∧ ch.length ≤ fuel ∧
      ∀ c' ∈ batch, c' ≠ c → c' ∉ ch)
    (hbp : mcts_backprop_loop fuel t₁ batch 0 false none = some (t₂, ms, ft, bst)) :
    VisitInv t₂ := by
  obtain ⟨hPC, hCE, _, hVI⟩ := hinv
  have hS1 : SameStructure t t₁ := mcts_evaluate_loop_sameStructure batch t t₁ heval
  have hS2 : SameStructure t₁ t₂ :=
    mcts_backprop_loop_sameStructure fuel batch t₁ 0 false none t₂ ms ft bst hbp
  have hCE1 : ChainEx t₁ := hCE.ce_of_sameStructure hS1
  have hch' : ∀ c ∈ batch, ∃ ch, ParentChain t₁ c ch ∧ ch.Nodup ∧ ch.length ≤ fuel ∧
      ∀ c' ∈ batch, c' ≠ c → c' ∉ ch := by
    intro c hc
    obtain ⟨ch, hc1, hlen, hdisj⟩ := hch c hc
    obtain ⟨n, hn⟩ := hc1.exists_node
    obtain ⟨ch2, hch2, hnd2⟩ := hCE1 c n hn
    obtain rfl : ch = ch2 := (ParentChain.unique hch2 hc1).symm
    exact ⟨ch, hc1, hnd2, hlen, hdisj⟩
  obtain ⟨hH, hU⟩ := mcts_backprop_loop_visits fuel t₁ batch t₁ 0 false none t₂ ms ft bst
    hnd (fun _ _ => Eq.refl _) (SameParents.sp_refl _) hch' hbp
  have hmonoBP := mcts_backprop_loop_visits_mono fuel batch t₁ 0 false none t₂ ms ft bst hbp
  have hexist : ∀ c ∈ batch, ∃ n, t c = some n :=
    mcts_evaluate_loop_mem_node batch t t₁ heval
  obtain ⟨t₁', hL, hOn, hOff⟩ := mcts_evaluate_value_formula batch t hnd hexist
  obtain rfl : t₁ = t₁' := Option.some_injective _ (heval.symm.trans hL)
  -- the invariant on the final tree
  intro p np c nc hp2 hcmem hc2 hpos
  obtain ⟨nc1, hc1, hncpar, _⟩ := hS2.symm.lookup hc2
  obtain ⟨np1, hp1, _, hnpch1⟩ := hS2.symm.lookup hp2
  obtain ⟨nc0, hc0, hncpar0, _⟩ := hS1.symm.lookup hc1
  obtain ⟨np0, hp0, _, hnpch0⟩ := hS1.symm.lookup hp1
  have hcmem0 : c ∈ np0.children_ids := by
    rw [hnpch0, hnpch1]
    exact hcmem
  obtain ⟨nc0', hnc0', hpar0⟩ := hPC p np0 c hp0 hcmem0
  obtain rfl : nc0 = nc0' := Option.some_injective _ (hc0.symm.trans hnc0')
  have hparent1 : nc1.parent_id = some p := by rw [← hncpar0]; exact hpar0
  by_cases hc0pos : 0 < nc0.visits
  · -- the child was already visited before the cycle
    have hp0pos : 0 < np0.visits := hVI p np0 c nc0 hp0 hcmem0 hc0 hc0pos
    have hp1pos : 0 < np1.visits := by
      by_cases hpb : p ∈ batch
      · obtain ⟨m, hm, hm1⟩ := hOn p hpb
        obtain rfl : np1 = _ := Option.some_injective _ (hp1.symm.trans hm1)
        exact Nat.one_pos
      · have : t₁ p = t p := hOff p hpb
        rw [this] at hp1
        obtain rfl : np0 = np1 := Option.some_injective _ (hp0.symm.trans hp1)
        exact hp0pos
    obtain ⟨m', hm', hle⟩ := hmonoBP p np1 hp1
    obtain rfl : m' = np := Option.some_injective _ (hm'.symm.trans hp2)
    exact lt_of_lt_of_le hp1pos hle
  · by_cases hcb : c ∈ batch
    · -- a batch child: its parent lies on its backpropagated chain
      obtain ⟨ch, hchc, _, _, _⟩ := hch' c hcb
      have hpmem : p ∈ ch := hchc.parent_mem c hchc.head_mem nc1 hc1 p hparent1
      obtain ⟨m', hm', hpos'⟩ := hH c hcb ch hchc p hpmem
      obtain rfl : m' = np := Option.some_injective _ (hm'.symm.trans hp2)
      exact hpos'
    · -- off-batch child: positive visits can only come from lying on a
      -- batch node's chain, whose members all end positive
      by_cases hex2 : ∃ b ∈ batch, ∃ chb, ParentChain t₁ b chb ∧ c ∈ chb
      · obtain ⟨b, hb, chb, hchb, hcin⟩ := hex2
        have hpmem : p ∈ chb := hchb.parent_mem c hcin nc1 hc1 p hparent1
        obtain ⟨m', hm', hpos'⟩ := hH b hb chb hchb p hpmem
        obtain rfl : m' = np := Option.some_injective _ (hm'.symm.trans hp2)
        exact hpos'
      · exfalso
        have huntouched : t₂ c = t₁ c := by
          refine hU c ?_
          intro b hb chb hchb hcin
          exact hex2 ⟨b, hb, chb, hchb, hcin⟩
        have hceq : t₁ c = t c := hOff c hcb
        rw [huntouched, hceq] at hc2
        obtain rfl : nc0 = nc := Option.some_injective _ (hc0.symm.trans hc2)
        exact hc0pos hpos

/-- Adding a fresh child under an existing node preserves all the
structural invariants: the new node has no children and zero visits, its
parent back-reference matches the appended child-list entry, and no
other node is touched. -/
theorem add_child_inv (t : TreeMap) (sel cid : Nat) (content : List Char) (terminal : Bool)
    (n : MCTSNode) (hsel : t sel = some n) (hfresh : t cid = none)
    (hinv : TreeInv t) : TreeInv (add_child t sel cid content terminal) := by
  obtain ⟨hPC, hCE, hFS, hVI⟩ := hinv
  have hne : cid ≠ sel := by
    intro h
    rw [h, hsel] at hfresh
    exact absurd hfresh (by simp)
  have hadd : add_child t sel cid content terminal =
      (t.set cid { MCTSNode.fresh cid content (some sel) with is_terminal := terminal }).set
        sel { n with children_ids := n.children_ids ++ [cid] } := by
    simp only [add_child, hsel]
  rw [hadd]
  set child : MCTSNode :=
    { MCTSNode.fresh cid content (some sel) with is_terminal := terminal } with hchild
  set t' := (t.set cid child).set sel { n with children_ids := n.children_ids ++ [cid] }
    with ht'
  have ht'sel : t' sel = some { n with children_ids := n.children_ids ++ [cid] } :=
    TreeMap.set_self _ _ _
  have ht'cid : t' cid = some child := by
    rw [ht', TreeMap.set_other _ _ _ _ hne, TreeMap.set_self]
  have ht'other : ∀ j, j ≠ sel → j ≠ cid → t' j = t j := by
    intro j h1 h2
    rw [ht', TreeMap.set_other _ _ _ _ h1, TreeMap.set_other _ _ _ _ h2]
  have hnocid : ∀ p np, t p = some np → cid ∉ np.children_ids := by
    intro p np hp hmem
    obtain ⟨nc, hnc, _⟩ := hPC p np cid hp hmem
    rw [hfresh] at hnc
    exact absurd hnc (by simp)
  have hcase : ∀ j nj, t' j = some nj →
      (sel = j ∧ nj = { n with children_ids := n.children_ids ++ [cid] }) ∨
      (cid = j ∧ nj = child) ∨ (j ≠ sel ∧ j ≠ cid ∧ t j = some nj) := by
    intro j nj hj
    by_cases h1 : j = sel
    · subst h1
      rw [ht'sel] at hj
      exact Or.inl ⟨Eq.refl _, (Option.some_injective _ hj).symm⟩
    · by_cases h2 : j = cid
      · subst h2
        rw [ht'cid] at hj
        exact Or.inr (Or.inl ⟨Eq.refl _, (Option.some_injective _ hj).symm⟩)
      · refine Or.inr (Or.inr ⟨h1, h2, ?_⟩)
        rw [← ht'other j h1 h2]
        exact hj
  have htransfer : ∀ {i : Nat} {ch : List Nat}, ParentChain t i ch → ParentChain t' i ch := by
    intro i ch hch
    refine hch.of_parent_eq ?_
    intro j _ m hm
    by_cases h1 : j = sel
    · subst h1
      obtain rfl : n = m := Option.some_injective _ (hsel.symm.trans hm)
      exact ⟨{ n with children_ids := n.children_ids ++ [cid] }, ht'sel, Eq.refl _⟩
    · by_cases h2 : j = cid
      · subst h2
        rw [hfresh] at hm
        exact absurd hm (by simp)
      · refine ⟨m, ?_, Eq.refl _⟩
        rw [ht'other j h1 h2]
        exact hm
  refine ⟨?_, ?_, ?_, ?_⟩
  · -- parent consistency
    intro p np c hp hc
    rcases hcase p np hp with ⟨rfl, rfl⟩ | ⟨rfl, rfl⟩ | ⟨h1, h2, hp'⟩
    · rcases List.mem_append.mp hc with hcold | hcnew
      · obtain ⟨nc, hnc, hparc⟩ := hPC sel n c hsel hcold
        by_cases hcs : c = sel
        · subst hcs
          obtain rfl : n = nc := Option.some_injective _ (hsel.symm.trans hnc)
          exact ⟨_, ht'sel, hparc⟩
        · have hcc : c ≠ cid := by
            intro h
            exact hnocid sel n hsel (h ▸ hcold)
          refine ⟨nc, ?_, hparc⟩
          rw [ht'other c hcs hcc]
          exact hnc
      · obtain rfl : c = cid := by simpa using hcnew
        exact ⟨child, ht'cid, Eq.refl _⟩
    · simp [hchild, MCTSNode.fresh] at hc
    · obtain ⟨nc, hnc, hparc⟩ := hPC p np c hp' hc
      by_cases hcs : c = sel
      · subst hcs
        obtain rfl : n = nc := Option.some_injective _ (hsel.symm.trans hnc)
        exact ⟨_, ht'sel, hparc⟩
      · have hcc : c ≠ cid := by
          intro h
          exact hnocid p np hp' (h ▸ hc)
        refine ⟨nc, ?_, hparc⟩
        rw [ht'other c hcs hcc]
        exact hnc
  · -- chain existence
    intro i ni hi
    rcases hcase i ni hi with ⟨rfl, rfl⟩ | ⟨rfl, rfl⟩ | ⟨h1, h2, hi'⟩
    · obtain ⟨ch, hch, hnd⟩ := hCE sel n hsel
      exact ⟨ch, htransfer hch, hnd⟩
    · obtain ⟨ch, hch, hnd⟩ := hCE sel n hsel
      have hcidch : cid ∉ ch := by
        intro hmem
        obtain ⟨m, hm⟩ := hch.mem_exists_node cid hmem
        rw [hfresh] at hm
        exact absurd hm (by simp)
      refine ⟨cid :: ch, ?_, ?_⟩
      · exact ParentChain.step cid sel child ch ht'cid (Eq.refl _) (htransfer hch)
      · exact List.nodup_cons.mpr ⟨hcidch, hnd⟩
    · obtain ⟨ch, hch, hnd⟩ := hCE i ni hi'
      exact ⟨ch, htransfer hch, hnd⟩
  · -- finite support
    obtain ⟨s, hs⟩ := hFS
    refine ⟨insert cid s, ?_⟩
    intro j
    by_cases h1 : j = sel
    · rw [h1, ht'sel]
      simp only [Option.isSome_some, true_iff]
      have hmem : (t sel).isSome := by rw [hsel]; rfl
      exact Finset.mem_insert_of_mem ((hs sel).mp hmem)
    · by_cases h2 : j = cid
      · rw [h2, ht'cid]
        simp [Finset.mem_insert]
      · rw [ht'other j h1 h2, hs j]
        constructor
        · exact fun h => Finset.mem_insert_of_mem h
        · intro h
          rcases Finset.mem_insert.mp h with rfl | h
          · exact absurd rfl h2
          · exact h
  · -- visit-count invariant
    intro p np c nc hp hc hcn hpos
    rcases hcase p np hp with ⟨rfl, rfl⟩ | ⟨rfl, rfl⟩ | ⟨h1, h2, hp'⟩
    · rcases List.mem_append.mp hc with hcold | hcnew
      · by_cases hcs : c = sel
        · subst hcs
          rw [ht'sel] at hcn
          obtain rfl : _ = nc := Option.some_injective _ hcn
          exact hpos
        · have hcc : c ≠ cid := by
            intro h
            exact hnocid sel n hsel (h ▸ hcold)
          rw [ht'other c hcs hcc] at hcn
          exact hVI sel n c nc hsel hcold hcn hpos
      · obtain rfl : c = cid := by simpa using hcnew
        rw [ht'cid] at hcn
        obtain rfl : child = nc := Option.some_injective _ hcn
        simp [hchild, MCTSNode.fresh] at hpos
    · simp [hchild, MCTSNode.fresh] at hc
    · by_cases hcs : c = sel
      · rw [hcs, ht'sel] at hcn
        obtain rfl : _ = nc := Option.some_injective _ hcn
        exact hVI p np sel n hp' (hcs ▸ hc) hsel (by simpa using hpos)
      · by_cases hcc : c = cid
        · exact absurd (hcc ▸ hc) (hnocid p np hp')
        · rw [ht'other c hcs hcc] at hcn
          exact hVI p np c nc hp' hc hcn hpos

/-! Reachable trees (claim C10).  The engine builds its tree by the three
operations named in the claim: expansion (`mcts_expand_node` appends a
batch of fresh children under the selected node), evaluation
(`mcts_evaluate_node` scores the batch, setting each batch node's visits
to 1), and backpropagation (`mcts_backprop_node` walks each batch node's
parent chain adding a visit at every step).  `initialize_tree_node`
(nodes.py, lines 737-756) creates the initial one-node tree. -/

/-- The tree created by `initialize_tree_node`: a single root node with
no parent, no children and zero visits. -/
def init_tree (rootId : Nat) (content : List Char) : TreeMap :=
  TreeMap.empty.set rootId (MCTSNode.fresh rootId content none)

theorem add_child_sel_lookup (t : TreeMap) (sel cid : Nat) (content : List Char)
    (terminal : Bool) (n : MCTSNode) (hsel : t sel = some n) :
    add_child t sel cid content terminal sel =
      some { n with children_ids := n.children_ids ++ [cid] } := by
  simp only [add_child, hsel]
  exact TreeMap.set_self _ _ _

theorem add_child_other_lookup (t : TreeMap) (sel cid : Nat) (content : List Char)
    (terminal : Bool) (j : Nat) (hj1 : j ≠ sel) (hj2 : j ≠ cid) :
    add_child t sel cid content terminal j = t j := by
  cases hsel : t sel with
  | none => simp [add_child, hsel]
  | some n =>
    simp only [add_child, hsel]
    rw [TreeMap.set_other _ _ _ _ hj1, TreeMap.set_other _ _ _ _ hj2]

/-- Appending one whole expansion batch of fresh children under an
existing node preserves the structural invariants. -/
theorem expand_node_batch_inv (sel : Nat) :
    ∀ (cands : List (Nat × List Char × Bool)) (t : TreeMap) (n : MCTSNode),
      t sel = some n →
      (∀ c ∈ cands, t c.1 = none) →
      (cands.map Prod.fst).Nodup →
      TreeInv t → TreeInv (expand_node_batch t sel cands) := by
  intro cands
  induction cands with
  | nil =>
    intro t n _ _ _ hinv
    exact hinv
  | cons c rest ih =>
    intro t n hsel hfresh hnd hinv
    have hfc : t c.1 = none := hfresh c (List.mem_cons_self _ _)
    have hinv' := add_child_inv t sel c.1 c.2.1 c.2.2 n hsel hfc hinv
    have hcs : c.1 ≠ sel := by
      intro h
      rw [h, hsel] at hfc
      exact absurd hfc (by simp)
    have hsel' : add_child t sel c.1 c.2.1 c.2.2 sel =
        some { n with children_ids := n.children_ids ++ [c.1] } :=
      add_child_sel_lookup t sel c.1 c.2.1 c.2.2 n hsel
    have hndm : c.1 ∉ rest.map Prod.fst ∧ (rest.map Prod.fst).Nodup := by
      rw [List.map_cons] at hnd
      exact List.nodup_cons.mp hnd
    have hfresh' : ∀ d ∈ rest, add_child t sel c.1 c.2.1 c.2.2 d.1 = none := by
      intro d hd
      have hdt : t d.1 = none := hfresh d (List.mem_cons_of_mem _ hd)
      have hds : d.1 ≠ sel := by
        intro h
        rw [h, hsel] at hdt
        exact absurd hdt (by simp)
      have hdc : d.1 ≠ c.1 := by
        intro h
        exact hndm.1 (h ▸ List.mem_map_of_mem Prod.fst hd)
      rw [add_child_other_lookup t sel c.1 c.2.1 c.2.2 d.1 hds hdc]
      exact hdt
    exact ih (add_child t sel c.1 c.2.1 c.2.2) _ hsel' hfresh' hndm.2 hinv'

/-- The initial one-node tree satisfies the structural invariants. -/
theorem init_tree_inv (rootId : Nat) (content : List Char) :
    TreeInv (init_tree rootId content) := by
  have hlook : ∀ i n, init_tree rootId content i = some n →
      i = rootId ∧ n = MCTSNode.fresh rootId content none := by
    intro i n h
    simp only [init_tree, TreeMap.set, TreeMap.empty] at h
    split at h
    · exact ⟨by assumption, (Option.some_injective _ h).symm⟩
    · exact absurd h (by simp)
  refine ⟨?_, ?_, ?_, ?_⟩
  · intro p np cc hp hc
    obtain ⟨rfl, rfl⟩ := hlook p np hp
    exact absurd hc (by simp [MCTSNode.fresh])
  · intro i n hn
    obtain ⟨rfl, rfl⟩ := hlook i n hn
    refine ⟨[i], ParentChain.root i _ hn rfl, by simp⟩
  · refine ⟨{rootId}, ?_⟩
    intro i
    by_cases h : i = rootId
    · subst h
      simp [init_tree, TreeMap.set]
    · simp [init_tree, TreeMap.set, TreeMap.empty, h]
  · intro p np cc nc hp hc
    obtain ⟨rfl, rfl⟩ := hlook p np hp
    exact absurd hc (by simp [MCTSNode.fresh])

/-- Trees reachable from initialization by whole engine cycles: an
expansion batch is always followed by evaluating that batch and
backpropagating it before the tree is observed again (graph.py wires
`mcts_expand → tool/evaluate → backprop` unconditionally). -/
inductive ReachableCycle : TreeMap → Prop where
  | init (rootId : Nat) (content : List Char) :
      ReachableCycle (init_tree rootId content)
  | expand (t : TreeMap) (sel : Nat) (n : MCTSNode)
      (cands : List (Nat × List Char × Bool)) :
      ReachableCycle t → t sel = some n →
      (∀ c ∈ cands, t c.1 = none) → (cands.map Prod.fst).Nodup →
      ReachableCycle (expand_node_batch t sel cands)
  | evalBackprop (t t₁ t₂ : TreeMap) (batch : List Nat) (fuel : Nat)
      (ms : ℚ) (ft : Bool) (bst : Option Nat) :
      ReachableCycle t → batch.Nodup →
      mcts_evaluate_loop t batch = some t₁ →
      (∀ c ∈ batch, ∃ ch, ParentChain t₁ c ch ∧ ch.length ≤ fuel ∧
        ∀ c' ∈ batch, c' ≠ c → c' ∉ ch) →
      mcts_backprop_loop fuel t₁ batch 0 false none = some (t₂, ms, ft, bst) →
      ReachableCycle t₂

/-- Trees reachable by the claim's three operations taken individually:
like `ReachableCycle`, but an evaluation step and a backpropagation step
each count as one operation on their own. -/
inductive ReachableOp : TreeMap → Prop where
  | init (rootId : Nat) (content : List Char) :
      ReachableOp (init_tree rootId content)
  | expand (t : TreeMap) (sel : Nat) (n : MCTSNode)
      (cands : List (Nat × List Char × Bool)) :
      ReachableOp t → t sel = some n →
      (∀ c ∈ cands, t c.1 = none) → (cands.map Prod.fst).Nodup →
      ReachableOp (expand_node_batch t sel cands)
  | evaluate (t t₁ : TreeMap) (batch : List Nat) :
      ReachableOp t → batch.Nodup →
      mcts_evaluate_loop t batch = some t₁ →
      ReachableOp t₁
  | backprop (t₁ t₂ : TreeMap) (batch : List Nat) (fuel : Nat)
      (ms : ℚ) (ft : Bool) (bst : Option Nat) :
      ReachableOp t₁ →
      mcts_backprop_loop fuel t₁ batch 0 false none = some (t₂, ms, ft, bst) →
      ReachableOp t₂

/-- Every tree reachable by whole cycles satisfies all the structural
invariants, in particular the visit-count invariant. -/
theorem reachableCycle_inv {t : TreeMap} (h : ReachableCycle t) : TreeInv t := by
  induction h with
  | init rootId content => exact init_tree_inv rootId content
  | expand t sel n cands _ hsel hfresh hnd ih =>
    exact expand_node_batch_inv sel cands t n hsel hfresh hnd ih
  | evalBackprop t t₁ t₂ batch fuel ms ft bst _ hnd heval hch hbp ih =>
    have hS1 : SameStructure t t₁ := mcts_evaluate_loop_sameStructure batch t t₁ heval
    have hS2 : SameStructure t₁ t₂ :=
      mcts_backprop_loop_sameStructure fuel batch t₁ 0 false none t₂ ms ft bst hbp
    have hS : SameStructure t t₂ := hS1.ss_trans hS2
    have hVI2 := cycle_preserves_visitInv t t₁ t₂ batch fuel ms ft bst ih hnd heval hch hbp
    obtain ⟨hPC, hCE, hFS, _⟩ := ih
    exact ⟨hPC.pc_of_sameStructure hS, hCE.ce_of_sameStructure hS, hFS.fs_of_sameStructure hS, hVI2⟩

/-- Any member of a parent chain has its own parent chain, no longer
than the ambient one. -/
theorem ParentChain.mem_chain_le {t : TreeMap} {i : Nat} {ch : List Nat}
    (h : ParentChain t i ch) :
    ∀ j ∈ ch, ∃ ch₂, ParentChain t j ch₂ ∧ ch₂.length ≤ ch.length := by
  induction h with
  | root i n hn hp =>
    intro j hj
    have hji : j = i := by simpa using hj
    subst hji
    exact ⟨_, ParentChain.root _ n hn hp, le_refl _⟩
  | step i p n ch hn hp hch ih =>
    intro j hj
    rcases List.mem_cons.mp hj with rfl | hj'
    · exact ⟨_, ParentChain.step _ p n ch hn hp hch, le_refl _⟩
    · obtain ⟨ch₂, h1, h2⟩ := ih j hj'
      exact ⟨ch₂, h1, le_trans h2 (by simp)⟩

/-- The child scan carrying an already-chosen best child returns some
best child that is the carried one or a scanned one. -/
theorem uct_fold_mem_some (t : TreeMap) (pv : Nat) :
    ∀ (l : List Nat) (bs : EReal) (b : Nat),
      (∀ c ∈ l, (t c).isSome) →
      ∃ s' b', uct_fold t pv l (bs, some b) = some (s', some b') ∧
        (b' = b ∨ b' ∈ l) := by
  intro l
  induction l with
  | nil =>
    intro bs b _
    exact ⟨bs, b, rfl, Or.inl rfl⟩
  | cons c rest ih =>
    intro bs b h
    obtain ⟨nc, hnc⟩ := Option.isSome_iff_exists.mp (h c (List.mem_cons_self _ _))
    have hrest : ∀ x ∈ rest, (t x).isSome :=
      fun x hx => h x (List.mem_cons_of_mem _ hx)
    simp only [uct_fold, hnc]
    by_cases hlt : bs < uct_score nc pv
    · rw [if_pos hlt]
      obtain ⟨s', b', hfold, hmem⟩ := ih (uct_score nc pv) c hrest
      exact ⟨s', b', hfold, Or.inr (hmem.elim
        (fun he => he ▸ List.mem_cons_self _ _) (List.mem_cons_of_mem _))⟩
    · rw [if_neg hlt]
      obtain ⟨s', b', hfold, hmem⟩ := ih bs b hrest
      exact ⟨s', b', hfold, hmem.elim Or.inl (fun hm => Or.inr (List.mem_cons_of_mem _ hm))⟩

/-- On a nonempty child list whose members all resolve, the child scan
started from the `-inf` accumulator picks some child of the list. -/
theorem uct_fold_cons_total (t : TreeMap) (pv : Nat) (c : Nat) (rest : List Nat)
    (h : ∀ x ∈ c :: rest, (t x).isSome) :
    ∃ s' b', uct_fold t pv (c :: rest) (⊥, none) = some (s', some b') ∧
      b' ∈ c :: rest := by
  obtain ⟨nc, hnc⟩ := Option.isSome_iff_exists.mp (h c (List.mem_cons_self _ _))
  simp only [uct_fold, hnc]
  have hbot : (⊥ : EReal) < uct_score nc pv :=
    bot_lt_iff_ne_bot.mpr (uct_score_ne_bot nc pv)
  rw [if_pos hbot]
  obtain ⟨s', b', hfold, hmem⟩ := uct_fold_mem_some t pv rest (uct_score nc pv) c
    (fun x hx => h x (List.mem_cons_of_mem _ hx))
  exact ⟨s', b', hfold, hmem.elim (fun he => he ▸ List.mem_cons_self _ _)
    (List.mem_cons_of_mem _)⟩

/-- On a tree whose listed children all resolve and whose parent chains
are duplicate-free, the UCT descent from any node terminates once the
fuel exceeds the number of nodes not already on the node's chain. -/
theorem select_leaf_some (t : TreeMap) (hPC : ParentConsistent t) (s : Finset Nat)
    (hs : ∀ i, (t i).isSome ↔ i ∈ s) :
    ∀ (fuel i : Nat) (ch : List Nat), ParentChain t i ch → ch.Nodup →
      s.card < ch.length + fuel → (select_leaf fuel t i).isSome := by
  intro fuel
  induction fuel with
  | zero =>
    intro i ch hch hnd hlt
    exfalso
    have hsub : ch.toFinset ⊆ s := by
      intro j hj
      obtain ⟨nj, hnj⟩ := hch.mem_exists_node j (List.mem_toFinset.mp hj)
      exact (hs j).mp (by rw [hnj]; rfl)
    have hcard : ch.length ≤ s.card := by
      rw [← List.toFinset_card_of_nodup hnd]
      exact Finset.card_le_card hsub
    omega
  | succ fuel' ih =>
    intro i ch hch hnd hlt
    obtain ⟨n, hn⟩ := hch.exists_node
    by_cases hemp : n.children_ids.isEmpty
    · simp [select_leaf, hn, hemp]
    · cases hkids : n.children_ids with
      | nil => exact absurd (by rw [hkids]; rfl) hemp
      | cons c rest =>
        have hall : ∀ x ∈ c :: rest, (t x).isSome := by
          intro x hx
          obtain ⟨nx, hnx, _⟩ := hPC i n x hn (by rw [hkids]; exact hx)
          rw [hnx]; rfl
        obtain ⟨s', b, hfold, hbmem⟩ := uct_fold_cons_total t n.visits c rest hall
        obtain ⟨nb, hnb, hnbp⟩ := hPC i n b hn (by rw [hkids]; exact hbmem)
        have hchb : ParentChain t b (b :: ch) :=
          ParentChain.step b i nb ch hnb hnbp hch
        have hbnot : b ∉ ch := by
          intro hbch
          obtain ⟨ch₂, hch₂, hlen₂⟩ := hch.mem_chain_le b hbch
          obtain rfl : ch₂ = b :: ch := ParentChain.unique hch₂ hchb
          simp at hlen₂
        have hnd' : (b :: ch).Nodup := List.nodup_cons.mpr ⟨hbnot, hnd⟩
        have h2 : (select_leaf fuel' t b).isSome := by
          refine ih b (b :: ch) hchb hnd' ?_
          simp only [List.length_cons]
          omega
        simp only [select_leaf, hn]
        rw [if_neg hemp, hkids, hfold]
        exact h2

/-- C10 (amended): the claimed visit-count invariant holds in every tree
reachable by whole engine cycles — i.e. whenever expansion of a batch is
followed by evaluating and backpropagating that batch before the tree is
observed again, as the graph wiring guarantees.  Consequently the
parent-visit count whose logarithm `uct_score` takes for a
positive-visit child is at least 1 (so the log argument is never 0) and
the UCT descent of `select_leaf` is total: some finite fuel returns a
leaf.  (Taken over the three operations individually, as the claim words
it, the invariant fails between evaluation and backpropagation — see the
counterexample.) -/
theorem mcts_visit_invariant (t : TreeMap) (h : ReachableCycle t) :
    VisitInv t ∧
    (∀ p np c nc, t p = some np → c ∈ np.children_ids → t c = some nc →
      nc.visits ≠ 0 → (1 : ℝ) ≤ (np.visits : ℝ) ∧ 0 ≤ Real.log (np.visits : ℝ)) ∧
    (∀ i, (t i).isSome → ∃ fuel, (select_leaf fuel t i).isSome) := by
  obtain ⟨hPC, hCE, hFS, hVI⟩ := reachableCycle_inv h
  refine ⟨hVI, ?_, ?_⟩
  · intro p np c nc hp hc hcn hcv
    have hpos : 0 < np.visits := hVI p np c nc hp hc hcn (Nat.pos_of_ne_zero hcv)
    have h1 : (1 : ℝ) ≤ (np.visits : ℝ) := by
      exact_mod_cast Nat.one_le_iff_ne_zero.mpr (Nat.pos_iff_ne_zero.mp hpos)
    exact ⟨h1, Real.log_nonneg h1⟩
  · intro i hi
    obtain ⟨n, hn⟩ := Option.isSome_iff_exists.mp hi
    obtain ⟨ch, hch, hnd⟩ := hCE i n hn
    obtain ⟨s, hs⟩ := hFS
    refine ⟨s.card + 1, select_leaf_some t hPC s hs (s.card + 1) i ch hch hnd ?_⟩
    omega

/-- The tree `initialize_tree_node` produces for root id 1. -/
def c10Init : TreeMap := init_tree 1 ("q".toList)

/-- The fresh child appended under the root by the expansion batch. -/
def c10Child : MCTSNode :=
  { MCTSNode.fresh 2 [] (some 1) with is_terminal := false }

/-- The tree after one expansion batch adds child 2 under root 1. -/
def c10Expanded : TreeMap := expand_node_batch c10Init 1 [(2, [], false)]

/-- The tree right after `mcts_evaluate_node` scores the batch `[2]` and
before `mcts_backprop_node` runs: child 2 has visits 1, root 1 still has
visits 0. -/
def c10AfterEval : TreeMap :=
  c10Expanded.set 2
    { c10Child with value := evaluate_combined_score c10Child, visits := 1 }

/-- The root as it stands in `c10AfterEval`. -/
def c10RootAfter : MCTSNode :=
  { MCTSNode.fresh 1 ("q".toList) none with children_ids := [2] }

/-- The evaluated child as it stands in `c10AfterEval`. -/
def c10ChildAfter : MCTSNode :=
  { c10Child with value := evaluate_combined_score c10Child, visits := 1 }

/-- C10 as claimed is false: reading the claim over the program's three
operations individually (expansion, evaluation, backpropagation), the
tree reached right after evaluating an expansion batch — a tree the
listed operations do produce — violates the visit-count invariant: the
evaluated child 2 has visits 1 while its parent, the root 1, still has
visits 0. -/
theorem visit_invariant_claim_false :
    ReachableOp c10AfterEval ∧ ¬ VisitInv c10AfterEval := by
  constructor
  · have h0 : ReachableOp c10Init := ReachableOp.init 1 ("q".toList)
    have h1 : ReachableOp c10Expanded := by
      refine ReachableOp.expand c10Init 1 (MCTSNode.fresh 1 ("q".toList) none)
        [(2, [], false)] h0 rfl ?_ (by simp)
      intro c hc
      have hc2 : c = (2, [], false) := by simpa using hc
      rw [hc2]
      rfl
    have heval : mcts_evaluate_loop c10Expanded [2] = some c10AfterEval := rfl
    exact ReachableOp.evaluate c10Expanded c10AfterEval [2] h1 (by simp) heval
  · intro hVI
    have hroot : c10AfterEval 1 = some c10RootAfter := rfl
    have hchild : c10AfterEval 2 = some c10ChildAfter := rfl
    have hmem : 2 ∈ c10RootAfter.children_ids := by
      rw [show c10RootAfter.children_ids = [2] from rfl]
      exact List.mem_singleton.mpr rfl
    have hpos : 0 < c10ChildAfter.visits := by
      rw [show c10ChildAfter.visits = 1 from rfl]
      exact Nat.one_pos
    have := hVI 1 c10RootAfter 2 c10ChildAfter hroot hmem hchild hpos
    rw [show c10RootAfter.visits = 0 from rfl] at this
    exact absurd this (lt_irrefl 0)

/-- The conclusions of the visit-invariant theorem instantiated at a
concrete cycle-reachable tree, the initial one-node tree. -/
theorem mcts_visit_invariant_witness :
    ReachableCycle (init_tree 1 ("q".toList)) ∧
    (VisitInv (init_tree 1 ("q".toList)) ∧
      (∀ p np c nc, init_tree 1 ("q".toList) p = some np → c ∈ np.children_ids →
        init_tree 1 ("q".toList) c = some nc → nc.visits ≠ 0 →
        (1 : ℝ) ≤ (np.visits : ℝ) ∧ 0 ≤ Real.log (np.visits : ℝ)) ∧
      (∀ i, (init_tree 1 ("q".toList) i).isSome →
        ∃ fuel, (select_leaf fuel (init_tree 1 ("q".toList)) i).isSome)) :=
  ⟨ReachableCycle.init 1 ("q".toList),
    mcts_visit_invariant (init_tree 1 ("q".toList)) (ReachableCycle.init 1 ("q".toList))⟩
